import Mathlib

set_option maxRecDepth 4000

/-!
Verification of the graph-coloring solver (Zykov branch-and-bound with
DSATUR and Bron-Kerbosch bounds).  The definitions below are a shallow
embedding of `src/graph.cpp`, `src/branch_and_bound.cpp` and the data
model of `src/graph.hpp`; the theorems check the documented properties
against those definitions.
-/

/-- The sparse graph representation of `graph.hpp`: current vertex count `n`,
original vertex count `orig_n`, adjacency sets indexed by current vertex
(`vector<unordered_set<int>> adj`), and for each current vertex the list of
original vertices merged into it (`vector<vector<int>> mapping`). -/
structure Graph where
  n : ℕ
  orig_n : ℕ
  adj : List (Finset ℕ)
  mapping : List (List ℕ)
deriving DecidableEq

/-- Vector access `adj[i]` into an adjacency list. -/
def adjAt (adj : List (Finset ℕ)) (i : ℕ) : Finset ℕ := adj.getD i ∅

/-- Vector access `mapping[i]`. -/
def Graph.mappingAt (g : Graph) (i : ℕ) : List ℕ := g.mapping.getD i []

/-- Well-formedness of the adjacency structure, as stated by the data model:
the adjacency vector has length `n`, neighbour indices are in range, no
current vertex is adjacent to itself, and adjacency is symmetric. -/
def AdjWF (g : Graph) : Prop :=
  g.adj.length = g.n ∧
  ∀ i < g.n, (∀ j ∈ adjAt g.adj i, j < g.n) ∧ i ∉ adjAt g.adj i ∧
    ∀ j ∈ adjAt g.adj i, i ∈ adjAt g.adj j

instance (g : Graph) : Decidable (AdjWF g) := by
  unfold AdjWF; infer_instance

-- Basic list-access lemmas used throughout.

theorem getD_set_self {α : Type} (l : List α) (k : ℕ) (d v : α)
    (h : k < l.length) : (l.set k v).getD k d = v := by
  induction l generalizing k with
  | nil => simp at h
  | cons a t ih =>
    cases k with
    | zero => simp [List.set, List.getD]
    | succ m =>
      simp only [List.set, List.getD_cons_succ]
      exact ih m (by simpa using h)

theorem getD_set_ne {α : Type} (l : List α) (k m : ℕ) (d v : α)
    (h : k ≠ m) : (l.set k v).getD m d = l.getD m d := by
  induction l generalizing k m with
  | nil => simp
  | cons a t ih =>
    cases k with
    | zero =>
      cases m with
      | zero => exact absurd rfl h
      | succ m' => simp [List.set]
    | succ k' =>
      cases m with
      | zero => simp [List.set]
      | succ m' =>
        simp only [List.set, List.getD_cons_succ]
        exact ih k' m' (by omega)

theorem set_getD_self {α : Type} (l : List α) (k : ℕ) (d : α)
    (h : k < l.length) : l.set k (l.getD k d) = l := by
  induction l generalizing k with
  | nil => simp at h
  | cons a t ih =>
    cases k with
    | zero => simp [List.set, List.getD]
    | succ m =>
      simp only [List.set, List.getD_cons_succ, List.cons.injEq, true_and]
      exact ih m (by simpa using h)

theorem getD_out_of_range {α : Type} (l : List α) (k : ℕ) (d : α)
    (h : l.length ≤ k) : l.getD k d = d := by
  simp [List.getD_eq_getElem?_getD, List.getElem?_eq_none (by simpa using h)]

/-- Unbounded range bound for a well-formed adjacency list: slots past the
end read back as the empty set. -/
theorem adjAt_of_le (adj : List (Finset ℕ)) (i : ℕ) (h : adj.length ≤ i) :
    adjAt adj i = ∅ := getD_out_of_range adj i ∅ h

theorem AdjWF.symm' {g : Graph} (hg : AdjWF g) {i j : ℕ}
    (h : j ∈ adjAt g.adj i) : i ∈ adjAt g.adj j := by
  rcases hg with ⟨hlen, hB⟩
  by_cases hi : i < g.n
  · exact (hB i hi).2.2 j h
  · rw [adjAt_of_le g.adj i (by omega)] at h
    simp at h

theorem AdjWF.mem_lt' {g : Graph} (hg : AdjWF g) {i j : ℕ}
    (h : j ∈ adjAt g.adj i) : j < g.n := by
  rcases hg with ⟨hlen, hB⟩
  by_cases hi : i < g.n
  · exact (hB i hi).1 j h
  · rw [adjAt_of_le g.adj i (by omega)] at h
    simp at h

theorem AdjWF.no_self' {g : Graph} (hg : AdjWF g) (i : ℕ) :
    i ∉ adjAt g.adj i := by
  rcases hg with ⟨hlen, hB⟩
  by_cases hi : i < g.n
  · exact (hB i hi).2.1
  · rw [adjAt_of_le g.adj i (by omega)]
    simp

-- ## `Graph::addEdge` (graph.cpp:103-110)

/-- The two set insertions `newG.adj[i].insert(j); newG.adj[j].insert(i);`
performed by `Graph::addEdge` once the bounds guard has passed (the second
insertion reads the vector state left by the first). -/
def addEdgeAdj (adj : List (Finset ℕ)) (i j : ℕ) : List (Finset ℕ) :=
  (adj.set i (insert j (adjAt adj i))).set j
    (insert i (adjAt (adj.set i (insert j (adjAt adj i))) j))

/-- `Graph::addEdge` (graph.cpp:103-110).  The source signature takes `int`
indices and guards with `if (i < n && j < n)`.  Inside the guard the source
indexes `adj[i]` and `adj[j]`; for a negative index that vector access is
out of bounds, which we model as `none`. -/
def Graph.addEdge (g : Graph) (i j : ℤ) : Option Graph :=
  if i < (g.n : ℤ) ∧ j < (g.n : ℤ) then
    if 0 ≤ i ∧ 0 ≤ j then
      some { g with adj := addEdgeAdj g.adj i.toNat j.toNat }
    else none
  else some g

/-- In-range form of `addEdge`: for `i, j < n` it succeeds and only rewrites
the adjacency vector. -/
theorem addEdge_eq_some (g : Graph) (i j : ℕ) (hi : i < g.n) (hj : j < g.n) :
    g.addEdge (i : ℤ) (j : ℤ) =
      some { g with adj := addEdgeAdj g.adj i j } := by
  unfold Graph.addEdge
  rw [if_pos ⟨by exact_mod_cast hi, by exact_mod_cast hj⟩,
    if_pos ⟨Int.ofNat_nonneg i, Int.ofNat_nonneg j⟩]
  simp

theorem addEdgeAdj_eq (adj : List (Finset ℕ)) (i j : ℕ) :
    addEdgeAdj adj i j =
      (adj.set i (insert j (adj.getD i ∅))).set j
        (insert i ((adj.set i (insert j (adj.getD i ∅))).getD j ∅)) := rfl

theorem length_addEdgeAdj (adj : List (Finset ℕ)) (i j : ℕ) :
    (addEdgeAdj adj i j).length = adj.length := by
  rw [addEdgeAdj_eq]; simp

theorem addEdgeAdj_idem (adj : List (Finset ℕ)) (i j : ℕ)
    (hi : i < adj.length) (hj : j < adj.length) :
    addEdgeAdj (addEdgeAdj adj i j) i j = addEdgeAdj adj i j := by
  by_cases hij : i = j
  · subst hij
    have hsimp : ∀ A : List (Finset ℕ), i < A.length →
        addEdgeAdj A i i = A.set i (insert i (A.getD i ∅)) := by
      intro A hA
      rw [addEdgeAdj_eq, getD_set_self A i ∅ _ hA, Finset.insert_idem,
        List.set_set]
    rw [hsimp adj hi, hsimp _ (by simp; exact hi),
      getD_set_self adj i ∅ _ hi, Finset.insert_idem, List.set_set]
  · have hga1j : (adj.set i (insert j (adj.getD i ∅))).getD j ∅
        = adj.getD j ∅ := getD_set_ne _ i j ∅ _ hij
    have hstep : addEdgeAdj adj i j =
        (adj.set i (insert j (adj.getD i ∅))).set j
          (insert i (adj.getD j ∅)) := by
      rw [addEdgeAdj_eq, hga1j]
    have hlen2 : (addEdgeAdj adj i j).length = adj.length :=
      length_addEdgeAdj adj i j
    have hga2i : (addEdgeAdj adj i j).getD i ∅ = insert j (adj.getD i ∅) := by
      rw [hstep, getD_set_ne _ j i ∅ _ (Ne.symm hij),
        getD_set_self adj i ∅ _ hi]
    have hga2j : (addEdgeAdj adj i j).getD j ∅ = insert i (adj.getD j ∅) := by
      rw [hstep, getD_set_self _ j ∅ _ (by simp; exact hj)]
    rw [addEdgeAdj_eq (addEdgeAdj adj i j) i j]
    have hb1 : (addEdgeAdj adj i j).set i
        (insert j ((addEdgeAdj adj i j).getD i ∅)) = addEdgeAdj adj i j := by
      rw [hga2i, Finset.insert_idem, ← hga2i,
        set_getD_self _ i ∅ (by rw [hlen2]; exact hi)]
    rw [hb1, hga2j, Finset.insert_idem, ← hga2j,
      set_getD_self _ j ∅ (by rw [hlen2]; exact hj)]

theorem addEdgeAdj_of_mem (adj : List (Finset ℕ)) (i j : ℕ)
    (hi : i < adj.length) (hj : j < adj.length)
    (hmem : j ∈ adjAt adj i) (hmem' : i ∈ adjAt adj j) :
    addEdgeAdj adj i j = adj := by
  unfold adjAt at hmem hmem'
  rw [addEdgeAdj_eq]
  have h1 : insert j (adj.getD i ∅) = adj.getD i ∅ := Finset.insert_eq_self.2 hmem
  rw [h1, set_getD_self adj i ∅ hi]
  have h2 : insert i (adj.getD j ∅) = adj.getD j ∅ := Finset.insert_eq_self.2 hmem'
  rw [h2, set_getD_self adj j ∅ hj]

/-- Claim C9: for vertices `i, j` in `[0, n)`, applying `addEdge(i,j)` twice
yields a graph structurally equal to applying it once, and if the edge
`{i,j}` is already present then `addEdge` returns a graph structurally
identical to the input, with `n`, `orig_n` and `mapping` unchanged. -/
theorem claim_C9 (g : Graph) (i j : ℕ) (hlen : g.adj.length = g.n)
    (hi : i < g.n) (hj : j < g.n) :
    (∃ g' : Graph, g.addEdge (i : ℤ) (j : ℤ) = some g' ∧
      g'.addEdge (i : ℤ) (j : ℤ) = some g' ∧
      g'.n = g.n ∧ g'.orig_n = g.orig_n ∧ g'.mapping = g.mapping) ∧
    (j ∈ adjAt g.adj i → i ∈ adjAt g.adj j →
      g.addEdge (i : ℤ) (j : ℤ) = some g) := by
  constructor
  · refine ⟨{ g with adj := addEdgeAdj g.adj i j }, addEdge_eq_some g i j hi hj, ?_, rfl, rfl, rfl⟩
    have h := addEdge_eq_some { g with adj := addEdgeAdj g.adj i j } i j hi hj
    rw [h]
    congr 1
    have : addEdgeAdj (addEdgeAdj g.adj i j) i j = addEdgeAdj g.adj i j :=
      addEdgeAdj_idem g.adj i j (by omega) (by omega)
    simp [this]
  · intro hmem hmem'
    rw [addEdge_eq_some g i j hi hj,
      addEdgeAdj_of_mem g.adj i j (by omega) (by omega) hmem hmem']

/-- Concrete path graph on three vertices 0-1-2 (edges {0,1} and {1,2}). -/
def pathGraph3 : Graph :=
  ⟨3, 3, [{1}, {0, 2}, {1}], [[0], [1], [2]]⟩

/-- Witness for C9 at the concrete path graph, with the present edge {0,1}. -/
theorem claim_C9_witness :
    (∃ g' : Graph, pathGraph3.addEdge 0 1 = some g' ∧
      g'.addEdge 0 1 = some g' ∧
      g'.n = pathGraph3.n ∧ g'.orig_n = pathGraph3.orig_n ∧
      g'.mapping = pathGraph3.mapping) ∧
    (1 ∈ adjAt pathGraph3.adj 0 → 0 ∈ adjAt pathGraph3.adj 1 →
      pathGraph3.addEdge 0 1 = some pathGraph3) :=
  claim_C9 pathGraph3 0 1 (by decide) (by decide) (by decide)

/-- Trivial one-vertex graph used in counterexamples. -/
def oneVertexGraph : Graph := ⟨1, 1, [∅], [[0]]⟩

/-- Counterexample to claim C10 as stated: for the index pair `(-1, 0)` on a
one-vertex graph, `-1` lies outside `[0, n)`, yet `addEdge` does not degrade
to the identity: the guard `i < n && j < n` passes and the vector access
`adj[-1]` is out of bounds (modelled as `none`). -/
theorem claim_C10_counterexample :
    ¬ (∀ i j : ℤ, (i < 0 ∨ (oneVertexGraph.n : ℤ) ≤ i ∨ j < 0 ∨
        (oneVertexGraph.n : ℤ) ≤ j) →
      oneVertexGraph.addEdge i j = some oneVertexGraph) := by
  intro h
  have := h (-1) 0 (by left; decide)
  have hnone : oneVertexGraph.addEdge (-1) 0 = none := by decide
  rw [hnone] at this
  exact Option.noConfusion this

/-- Claim C10, amended: if `n ≤ i` or `n ≤ j` the guard fails and `addEdge`
returns a graph structurally identical to `G` with no out-of-bounds access;
but if both `i < n` and `j < n` hold with `i` or `j` negative, the guard
passes and the source performs an out-of-bounds vector access (modelled as
`none`). -/
theorem claim_C10_amended (g : Graph) (i j : ℤ) :
    (((g.n : ℤ) ≤ i ∨ (g.n : ℤ) ≤ j) → g.addEdge i j = some g) ∧
    ((i < (g.n : ℤ) ∧ j < (g.n : ℤ) ∧ (i < 0 ∨ j < 0)) →
      g.addEdge i j = none) := by
  constructor
  · intro h
    unfold Graph.addEdge
    rw [if_neg (by omega)]
  · rintro ⟨hi, hj, hneg⟩
    unfold Graph.addEdge
    rw [if_pos ⟨hi, hj⟩, if_neg (by omega)]

/-- Witness for the amended C10 at concrete inputs. -/
theorem claim_C10_amended_witness :
    (((oneVertexGraph.n : ℤ) ≤ 5 ∨ (oneVertexGraph.n : ℤ) ≤ 0) →
      oneVertexGraph.addEdge 5 0 = some oneVertexGraph) ∧
    ((5 < (oneVertexGraph.n : ℤ) ∧ 0 < (oneVertexGraph.n : ℤ) ∧
        (5 < (0:ℤ) ∨ (0:ℤ) < 0)) →
      oneVertexGraph.addEdge 5 0 = none) :=
  claim_C10_amended oneVertexGraph 5 0

-- ## `Graph::mergeVertices` (graph.cpp:48-94)

/-- Renumbering of current indices induced by removing slot `j`
(`newIndices[a]` in the source): position `a` of the surviving vector holds
old index `a` when `a < j` and `a + 1` otherwise. -/
def skipIdx (j a : ℕ) : ℕ := if a < j then a else a + 1

theorem skipIdx_ne (j a : ℕ) : skipIdx j a ≠ j := by
  unfold skipIdx; split <;> omega

theorem skipIdx_lt (n j a : ℕ) (hj : j < n) (ha : a < n - 1) :
    skipIdx j a < n := by
  unfold skipIdx; split <;> omega

theorem skipIdx_inj (j a b : ℕ) (h : skipIdx j a = skipIdx j b) : a = b := by
  unfold skipIdx at h; split at h <;> split at h <;> omega

/-- Inverse of `skipIdx` on indices different from `j`. -/
def unskipIdx (j k : ℕ) : ℕ := if k < j then k else k - 1

theorem skipIdx_unskipIdx (j k : ℕ) (h : k ≠ j) :
    skipIdx j (unskipIdx j k) = k := by
  unfold skipIdx unskipIdx
  by_cases h1 : k < j
  · simp [h1]
  · have h2 : ¬ (k - 1 < j) := by omega
    simp [h1, h2]
    omega

theorem unskipIdx_lt (n j k : ℕ) (hj : j < n) (hk : k < n) (h : k ≠ j) :
    unskipIdx j k < n - 1 := by
  unfold unskipIdx; split <;> omega

/-- `newIndices` (graph.cpp:55-60): all old indices except `j`, in order. -/
theorem range_filter_ne (n j : ℕ) (hj : j < n) :
    (List.range n).filter (fun k => k ≠ j) =
      (List.range (n - 1)).map (skipIdx j) := by
  induction n with
  | zero => omega
  | succ m ih =>
    rw [Nat.add_sub_cancel, List.range_succ, List.filter_append]
    by_cases hjm : j = m
    · subst hjm
      have h1 : (List.range j).filter (fun k => k ≠ j) = List.range j :=
        List.filter_eq_self.2 (by intro x hx; simp at hx ⊢; omega)
      have h2 : (List.range j).map (skipIdx j) = List.range j := by
        have hcong : ∀ x ∈ List.range j, skipIdx j x = id x := by
          intro x hx; simp at hx; unfold skipIdx; simp [hx]
        rw [List.map_congr_left hcong, List.map_id]
      rw [h1, h2]
      simp
    · have hjm' : j < m := by omega
      rw [ih hjm']
      have hfm : List.filter (fun k => k ≠ j) [m] = [m] := by
        simp
        omega
      rw [hfm]
      have h3 : List.range m = List.range (m - 1) ++ [m - 1] := by
        conv_lhs => rw [show m = (m - 1) + 1 by omega]
        rw [List.range_succ]
      conv_rhs => rw [h3]
      rw [List.map_append]
      have h4 : skipIdx j (m - 1) = m := by unfold skipIdx; split <;> omega
      simp [h4]

/-- The `connected` predicate inside the adjacency rebuild of
`Graph::mergeVertices` (graph.cpp:78-86), expressed on old indices
`origA`, `origB`. -/
def mergeConn (g : Graph) (i j A B : ℕ) : Prop :=
  if A = i then B ∈ adjAt g.adj i ∨ B ∈ adjAt g.adj j
  else if B = i then i ∈ adjAt g.adj A ∨ j ∈ adjAt g.adj A
  else B ∈ adjAt g.adj A

instance (g : Graph) (i j A B : ℕ) : Decidable (mergeConn g i j A B) := by
  unfold mergeConn; infer_instance

/-- `Graph::mergeVertices` (graph.cpp:48-94): remove slot `j`, merge its
mapping into the slot of `i`, and rebuild the adjacency, connecting
surviving pairs `(a, b)` with `a < b` by the `connected` rule and inserting
both directions. -/
def Graph.mergeVertices (g : Graph) (i j : ℕ) : Graph :=
  { n := g.n - 1,
    orig_n := g.orig_n,
    adj := (List.range (g.n - 1)).map (fun a =>
      ((List.range (g.n - 1)).filter (fun b => decide (a ≠ b ∧
        (if a < b then
          mergeConn g i j
            (((List.range g.n).filter (fun k => k ≠ j)).getD a 0)
            (((List.range g.n).filter (fun k => k ≠ j)).getD b 0)
         else
          mergeConn g i j
            (((List.range g.n).filter (fun k => k ≠ j)).getD b 0)
            (((List.range g.n).filter (fun k => k ≠ j)).getD a 0))))).toFinset),
    mapping := ((List.range g.n).filter (fun k => k ≠ j)).map (fun old =>
      if old = i then g.mappingAt i ++ g.mappingAt j else g.mappingAt old) }

theorem getD_map_range {α : Type} (m : ℕ) (f : ℕ → α) (a : ℕ) (d : α)
    (ha : a < m) : ((List.range m).map f).getD a d = f a := by
  rw [List.getD_eq_getElem _ d (by simpa using ha)]
  simp

theorem newIndices_getD (n j a : ℕ) (hj : j < n) (ha : a < n - 1) :
    ((List.range n).filter (fun k => k ≠ j)).getD a 0 = skipIdx j a := by
  rw [range_filter_ne n j hj, getD_map_range _ _ _ _ ha]

theorem merge_n (g : Graph) (i j : ℕ) : (g.mergeVertices i j).n = g.n - 1 := rfl

theorem merge_orig (g : Graph) (i j : ℕ) :
    (g.mergeVertices i j).orig_n = g.orig_n := rfl

theorem merge_adj_length (g : Graph) (i j : ℕ) :
    (g.mergeVertices i j).adj.length = g.n - 1 := by
  unfold Graph.mergeVertices; simp

theorem merge_mapping_length (g : Graph) (i j : ℕ) (hj : j < g.n) :
    (g.mergeVertices i j).mapping.length = g.n - 1 := by
  unfold Graph.mergeVertices
  simp only [List.length_map]
  rw [range_filter_ne g.n j hj]
  simp

theorem merge_mappingAt (g : Graph) (i j a : ℕ) (hj : j < g.n)
    (ha : a < g.n - 1) :
    (g.mergeVertices i j).mappingAt a =
      if skipIdx j a = i then g.mappingAt i ++ g.mappingAt j
      else g.mappingAt (skipIdx j a) := by
  unfold Graph.mergeVertices Graph.mappingAt
  simp only
  rw [range_filter_ne g.n j hj, List.map_map, getD_map_range _ _ _ _ ha]
  simp only [Function.comp_apply]

theorem merge_adjAt_mem (g : Graph) (i j a b : ℕ) (hj : j < g.n)
    (ha : a < g.n - 1) :
    (b ∈ adjAt (g.mergeVertices i j).adj a ↔
      b < g.n - 1 ∧ a ≠ b ∧
        (if a < b then mergeConn g i j (skipIdx j a) (skipIdx j b)
         else mergeConn g i j (skipIdx j b) (skipIdx j a))) := by
  unfold Graph.mergeVertices adjAt
  simp only
  rw [getD_map_range _ _ _ _ ha]
  rw [List.mem_toFinset, List.mem_filter]
  constructor
  · rintro ⟨hbmem, hcond⟩
    have hb : b < g.n - 1 := by simpa using hbmem
    rw [decide_eq_true_eq] at hcond
    refine ⟨hb, hcond.1, ?_⟩
    rcases hcond with ⟨hne, hc⟩
    split at hc <;> rename_i hab
    · rw [if_pos hab]
      rwa [newIndices_getD g.n j a hj ha, newIndices_getD g.n j b hj hb] at hc
    · rw [if_neg hab]
      rwa [newIndices_getD g.n j b hj hb, newIndices_getD g.n j a hj ha] at hc
  · rintro ⟨hb, hne, hc⟩
    refine ⟨by simpa using hb, ?_⟩
    rw [decide_eq_true_eq]
    refine ⟨hne, ?_⟩
    split <;> rename_i hab
    · rw [if_pos hab] at hc
      rwa [newIndices_getD g.n j a hj ha, newIndices_getD g.n j b hj hb]
    · rw [if_neg hab] at hc
      rwa [newIndices_getD g.n j b hj hb, newIndices_getD g.n j a hj ha]

theorem mergeConn_symm (g : Graph) (hg : AdjWF g) (i j A B : ℕ) (hAB : A ≠ B) :
    mergeConn g i j A B ↔ mergeConn g i j B A := by
  unfold mergeConn
  by_cases hA : A = i
  · subst hA
    rw [if_pos rfl, if_neg (Ne.symm hAB), if_pos rfl]
    constructor
    · rintro (h | h)
      · exact Or.inl (hg.symm' h)
      · exact Or.inr (hg.symm' h)
    · rintro (h | h)
      · exact Or.inl (hg.symm' h)
      · exact Or.inr (hg.symm' h)
  · by_cases hB : B = i
    · subst hB
      rw [if_neg hA, if_pos rfl, if_pos rfl]
      constructor
      · rintro (h | h)
        · exact Or.inl (hg.symm' h)
        · exact Or.inr (hg.symm' h)
      · rintro (h | h)
        · exact Or.inl (hg.symm' h)
        · exact Or.inr (hg.symm' h)
    · rw [if_neg hA, if_neg hB, if_neg hB, if_neg hA]
      exact ⟨fun h => hg.symm' h, fun h => hg.symm' h⟩

/-- Order-insensitive reading of the merged adjacency. -/
theorem merge_adjAt_mem' (g : Graph) (hg : AdjWF g) (i j a b : ℕ)
    (hj : j < g.n) :
    b ∈ adjAt (g.mergeVertices i j).adj a ↔
      a < g.n - 1 ∧ b < g.n - 1 ∧ a ≠ b ∧
        mergeConn g i j (skipIdx j a) (skipIdx j b) := by
  by_cases ha : a < g.n - 1
  · rw [merge_adjAt_mem g i j a b hj ha]
    constructor
    · rintro ⟨hb, hne, hc⟩
      refine ⟨ha, hb, hne, ?_⟩
      by_cases hab : a < b
      · rwa [if_pos hab] at hc
      · rw [if_neg hab] at hc
        have hskipne : skipIdx j a ≠ skipIdx j b :=
          fun h => hne (skipIdx_inj j a b h)
        exact (mergeConn_symm g hg i j (skipIdx j b) (skipIdx j a)
          (Ne.symm hskipne)).1 hc
    · rintro ⟨_, hb, hne, hc⟩
      refine ⟨hb, hne, ?_⟩
      by_cases hab : a < b
      · rwa [if_pos hab]
      · rw [if_neg hab]
        have hskipne : skipIdx j a ≠ skipIdx j b :=
          fun h => hne (skipIdx_inj j a b h)
        exact (mergeConn_symm g hg i j (skipIdx j a) (skipIdx j b) hskipne).1 hc
  · constructor
    · intro h
      have : adjAt (g.mergeVertices i j).adj a = ∅ :=
        adjAt_of_le _ a (by rw [merge_adj_length]; omega)
      rw [this] at h
      simp at h
    · rintro ⟨h, _⟩
      omega

theorem merge_AdjWF (g : Graph) (hg : AdjWF g) (i j : ℕ) (hj : j < g.n) :
    AdjWF (g.mergeVertices i j) := by
  refine ⟨merge_adj_length g i j, ?_⟩
  intro a ha
  refine ⟨?_, ?_, ?_⟩
  · intro b hb
    rw [merge_adjAt_mem' g hg i j a b hj] at hb
    rw [merge_n]
    exact hb.2.1
  · intro hself
    rw [merge_adjAt_mem' g hg i j a a hj] at hself
    exact hself.2.2.1 rfl
  · intro b hb
    rw [merge_adjAt_mem' g hg i j a b hj] at hb
    rw [merge_adjAt_mem' g hg i j b a hj]
    rcases hb with ⟨h1, h2, h3, h4⟩
    have hskipne : skipIdx j a ≠ skipIdx j b :=
      fun h => h3 (skipIdx_inj j a b h)
    exact ⟨h2, h1, Ne.symm h3,
      (mergeConn_symm g hg i j (skipIdx j a) (skipIdx j b) hskipne).1 h4⟩

-- ## Sum of mapping sizes

/-- `sum(|mapping[i]|)` over all current vertices. -/
def sumMapLens (g : Graph) : ℕ := (g.mapping.map List.length).sum

theorem sum_map_range (n : ℕ) (f : ℕ → ℕ) :
    ((List.range n).map f).sum = ∑ k ∈ Finset.range n, f k := by
  induction n with
  | zero => simp
  | succ m ih =>
    rw [List.range_succ, List.map_append, List.sum_append,
      Finset.sum_range_succ, ih]
    simp

theorem list_len_sum_eq (l : List (List ℕ)) :
    (l.map List.length).sum =
      ∑ k ∈ Finset.range l.length, (l.getD k []).length := by
  induction l with
  | nil => simp
  | cons a t ih =>
    rw [List.map_cons, List.sum_cons, ih, List.length_cons,
      Finset.sum_range_succ' (fun k => ((a :: t).getD k []).length) t.length]
    simp only [List.getD_cons_succ, List.getD_cons_zero]
    ring

theorem merge_sumMapLens (g : Graph) (i j : ℕ)
    (hmaplen : g.mapping.length = g.n)
    (hi : i < g.n) (hj : j < g.n) (hij : i ≠ j) :
    sumMapLens (g.mergeVertices i j) = sumMapLens g := by
  have hn1 : 1 ≤ g.n := by omega
  -- left side as a Finset sum of the slot sizes, composed with skipIdx
  have hL : sumMapLens (g.mergeVertices i j) =
      ∑ a ∈ Finset.range (g.n - 1),
        (if skipIdx j a = i
         then (g.mappingAt i).length + (g.mappingAt j).length
         else (g.mappingAt (skipIdx j a)).length) := by
    unfold sumMapLens
    rw [list_len_sum_eq, merge_mapping_length g i j hj]
    apply Finset.sum_congr rfl
    intro a haa
    rw [Finset.mem_range] at haa
    have hma := merge_mappingAt g i j a hj haa
    rw [show (g.mergeVertices i j).mapping.getD a [] =
      (g.mergeVertices i j).mappingAt a from rfl, hma]
    by_cases hcase : skipIdx j a = i
    · rw [if_pos hcase, if_pos hcase, List.length_append]
    · rw [if_neg hcase, if_neg hcase]
  -- reindex through skipIdx
  have himg : (Finset.range (g.n - 1)).image (skipIdx j) =
      (Finset.range g.n).erase j := by
    ext k
    simp only [Finset.mem_image, Finset.mem_erase, Finset.mem_range]
    constructor
    · rintro ⟨a, ha, rfl⟩
      exact ⟨skipIdx_ne j a, skipIdx_lt g.n j a hj ha⟩
    · rintro ⟨hkj, hk⟩
      exact ⟨unskipIdx j k, unskipIdx_lt g.n j k hj hk hkj,
        skipIdx_unskipIdx j k hkj⟩
  have hreidx : (∑ a ∈ Finset.range (g.n - 1),
        (if skipIdx j a = i
         then (g.mappingAt i).length + (g.mappingAt j).length
         else (g.mappingAt (skipIdx j a)).length)) =
      ∑ k ∈ (Finset.range g.n).erase j,
        (if k = i
         then (g.mappingAt i).length + (g.mappingAt j).length
         else (g.mappingAt k).length) := by
    rw [← himg]
    rw [Finset.sum_image]
    intro x _ y _ hxy
    exact skipIdx_inj j x y hxy
  -- complete the erased sums
  have hjmem : j ∈ Finset.range g.n := Finset.mem_range.2 hj
  have himem : i ∈ Finset.range g.n := Finset.mem_range.2 hi
  have htotal : (∑ k ∈ (Finset.range g.n).erase j,
        (if k = i
         then (g.mappingAt i).length + (g.mappingAt j).length
         else (g.mappingAt k).length)) +
      (if j = i
       then (g.mappingAt i).length + (g.mappingAt j).length
       else (g.mappingAt j).length) =
      ∑ k ∈ Finset.range g.n,
        (if k = i
         then (g.mappingAt i).length + (g.mappingAt j).length
         else (g.mappingAt k).length) := Finset.sum_erase_add _ _ hjmem
  rw [if_neg (Ne.symm hij)] at htotal
  have hRfull : (∑ k ∈ Finset.range g.n,
        (if k = i
         then (g.mappingAt i).length + (g.mappingAt j).length
         else (g.mappingAt k).length)) =
      (∑ k ∈ Finset.range g.n, (g.mappingAt k).length) +
        (g.mappingAt j).length := by
    have e1 : (∑ k ∈ (Finset.range g.n).erase i,
          (if k = i
           then (g.mappingAt i).length + (g.mappingAt j).length
           else (g.mappingAt k).length)) +
        (if i = i
         then (g.mappingAt i).length + (g.mappingAt j).length
         else (g.mappingAt i).length) =
        ∑ k ∈ Finset.range g.n,
          (if k = i
           then (g.mappingAt i).length + (g.mappingAt j).length
           else (g.mappingAt k).length) := Finset.sum_erase_add _ _ himem
    have e2 : (∑ k ∈ (Finset.range g.n).erase i, (g.mappingAt k).length) +
        (g.mappingAt i).length =
        ∑ k ∈ Finset.range g.n, (g.mappingAt k).length :=
      Finset.sum_erase_add _ _ himem
    have e3 : (∑ k ∈ (Finset.range g.n).erase i,
          (if k = i
           then (g.mappingAt i).length + (g.mappingAt j).length
           else (g.mappingAt k).length)) =
        ∑ k ∈ (Finset.range g.n).erase i, (g.mappingAt k).length := by
      apply Finset.sum_congr rfl
      intro k hk
      rw [if_neg (Finset.ne_of_mem_erase hk)]
    rw [e3, if_pos rfl] at e1
    omega
  have hRsum : sumMapLens g = ∑ k ∈ Finset.range g.n, (g.mappingAt k).length := by
    unfold sumMapLens
    rw [list_len_sum_eq, hmaplen]
    apply Finset.sum_congr rfl
    intro k _
    rfl
  omega

/-- The position of `i` in the merged graph, and its merged mapping. -/
theorem merge_merged_slot (g : Graph) (i j : ℕ) (hi : i < g.n) (hj : j < g.n)
    (hij : i ≠ j) :
    unskipIdx j i < g.n - 1 ∧
      (g.mergeVertices i j).mappingAt (unskipIdx j i) =
        g.mappingAt i ++ g.mappingAt j := by
  have ha : unskipIdx j i < g.n - 1 := unskipIdx_lt g.n j i hj hi hij
  refine ⟨ha, ?_⟩
  rw [merge_mappingAt g i j _ hj ha, if_pos (skipIdx_unskipIdx j i hij)]

theorem adjAt_addEdgeAdj (adj : List (Finset ℕ)) (i j x : ℕ)
    (hi : i < adj.length) (hj : j < adj.length) (hij : i ≠ j) :
    adjAt (addEdgeAdj adj i j) x =
      if x = i then insert j (adjAt adj i)
      else if x = j then insert i (adjAt adj j)
      else adjAt adj x := by
  have hga1j : (adj.set i (insert j (adj.getD i ∅))).getD j ∅
      = adj.getD j ∅ := getD_set_ne _ i j ∅ _ hij
  have hstep : addEdgeAdj adj i j =
      (adj.set i (insert j (adj.getD i ∅))).set j
        (insert i (adj.getD j ∅)) := by
    rw [addEdgeAdj_eq, hga1j]
  unfold adjAt
  rw [hstep]
  by_cases hxj : x = j
  · subst hxj
    rw [if_neg (fun h => hij h.symm), if_pos rfl,
      getD_set_self _ x ∅ _ (by simp; exact hj)]
  · rw [getD_set_ne _ j x ∅ _ (fun h => hxj h.symm)]
    by_cases hxi : x = i
    · subst hxi
      rw [if_pos rfl, getD_set_self adj x ∅ _ hi]
    · rw [if_neg hxi, if_neg hxj, getD_set_ne _ i x ∅ _ (fun h => hxi h.symm)]

theorem mem_addEdgeAdj (adj : List (Finset ℕ)) (i j x y : ℕ)
    (hi : i < adj.length) (hj : j < adj.length) (hij : i ≠ j) :
    y ∈ adjAt (addEdgeAdj adj i j) x ↔
      (y ∈ adjAt adj x ∨ (x = i ∧ y = j) ∨ (x = j ∧ y = i)) := by
  rw [adjAt_addEdgeAdj adj i j x hi hj hij]
  by_cases hx1 : x = i
  · subst hx1
    rw [if_pos rfl]
    simp only [Finset.mem_insert]
    constructor
    · rintro (rfl | h)
      · exact Or.inr (Or.inl ⟨trivial, rfl⟩)
      · exact Or.inl h
    · rintro (h | ⟨_, rfl⟩ | ⟨hxj, rfl⟩)
      · exact Or.inr h
      · exact Or.inl rfl
      · exact absurd hxj hij
  · by_cases hx2 : x = j
    · subst hx2
      rw [if_neg hx1, if_pos rfl]
      simp only [Finset.mem_insert]
      constructor
      · rintro (rfl | h)
        · exact Or.inr (Or.inr ⟨trivial, rfl⟩)
        · exact Or.inl h
      · rintro (h | ⟨hxi, rfl⟩ | ⟨_, rfl⟩)
        · exact Or.inr h
        · exact absurd hxi hx1
        · exact Or.inl rfl
    · rw [if_neg hx1, if_neg hx2]
      constructor
      · exact fun h => Or.inl h
      · rintro (h | ⟨hxi, _⟩ | ⟨hxj, _⟩)
        · exact h
        · exact absurd hxi hx1
        · exact absurd hxj hx2

theorem addEdge_AdjWF (g : Graph) (hg : AdjWF g) (i j : ℕ)
    (hi : i < g.n) (hj : j < g.n) (hij : i ≠ j) :
    AdjWF { g with adj := addEdgeAdj g.adj i j } := by
  have hlen : g.adj.length = g.n := hg.1
  constructor
  · simp [length_addEdgeAdj, hlen]
  · intro x hx
    refine ⟨?_, ?_, ?_⟩
    · intro y hy
      rw [mem_addEdgeAdj g.adj i j x y (by omega) (by omega) hij] at hy
      rcases hy with h | ⟨_, rfl⟩ | ⟨_, rfl⟩
      · exact hg.mem_lt' h
      · exact hj
      · exact hi
    · intro hself
      rw [mem_addEdgeAdj g.adj i j x x (by omega) (by omega) hij] at hself
      rcases hself with h | ⟨h1, h2⟩ | ⟨h1, h2⟩
      · exact hg.no_self' x h
      · exact hij (by omega)
      · exact hij (by omega)
    · intro y hy
      rw [mem_addEdgeAdj g.adj i j x y (by omega) (by omega) hij] at hy
      rw [mem_addEdgeAdj g.adj i j y x (by omega) (by omega) hij]
      rcases hy with h | ⟨rfl, rfl⟩ | ⟨rfl, rfl⟩
      · exact Or.inl (hg.symm' h)
      · exact Or.inr (Or.inr ⟨rfl, rfl⟩)
      · exact Or.inr (Or.inl ⟨rfl, rfl⟩)

/-- Claim C5: for a graph satisfying the data-model invariants and a pair of
distinct non-adjacent current vertices `i, j < n`, `mergeVertices(i,j)`
yields `n' = n - 1`, a merged slot whose mapping is `mapping[i] ++ mapping[j]`
(as a set, the union), an unchanged total `sum |mapping| = orig_n`, and no
vertex adjacent to itself; `addEdge(i,j)` keeps `n`, `mapping`, `orig_n`
and all the invariants. -/
theorem claim_C5 (g : Graph) (i j : ℕ)
    (hwf : AdjWF g) (hmaplen : g.mapping.length = g.n)
    (hsum : sumMapLens g = g.orig_n) (hno : g.n ≤ g.orig_n)
    (hi : i < g.n) (hj : j < g.n) (hij : i ≠ j)
    (hnadj : j ∉ adjAt g.adj i) :
    ((g.mergeVertices i j).n = g.n - 1 ∧
     (∃ a < g.n - 1,
        (g.mergeVertices i j).mappingAt a = g.mappingAt i ++ g.mappingAt j ∧
        ∀ x, x ∈ (g.mergeVertices i j).mappingAt a ↔
          x ∈ g.mappingAt i ∨ x ∈ g.mappingAt j) ∧
     sumMapLens (g.mergeVertices i j) = g.orig_n ∧
     (∀ a, a ∉ adjAt (g.mergeVertices i j).adj a)) ∧
    (∃ g', g.addEdge (i : ℤ) (j : ℤ) = some g' ∧
      g'.n = g.n ∧ g'.mapping = g.mapping ∧ g'.orig_n = g.orig_n ∧
      AdjWF g' ∧ sumMapLens g' = g.orig_n ∧ g'.n ≤ g'.orig_n) := by
  refine ⟨⟨merge_n g i j, ?_, ?_, ?_⟩, ?_⟩
  · obtain ⟨ha, hmap⟩ := merge_merged_slot g i j hi hj hij
    exact ⟨unskipIdx j i, ha, hmap, fun x => by rw [hmap]; simp⟩
  · rw [merge_sumMapLens g i j hmaplen hi hj hij, hsum]
  · intro a
    exact (merge_AdjWF g hwf i j hj).no_self' a
  · refine ⟨{ g with adj := addEdgeAdj g.adj i j },
      addEdge_eq_some g i j hi hj, rfl, rfl, rfl,
      addEdge_AdjWF g hwf i j hi hj hij, ?_, ?_⟩
    · exact hsum
    · exact hno

/-- Witness for C5 on the concrete path graph, merging its non-adjacent
endpoints 0 and 2. -/
theorem claim_C5_witness :
    ((pathGraph3.mergeVertices 0 2).n = pathGraph3.n - 1 ∧
     (∃ a < pathGraph3.n - 1,
        (pathGraph3.mergeVertices 0 2).mappingAt a =
          pathGraph3.mappingAt 0 ++ pathGraph3.mappingAt 2 ∧
        ∀ x, x ∈ (pathGraph3.mergeVertices 0 2).mappingAt a ↔
          x ∈ pathGraph3.mappingAt 0 ∨ x ∈ pathGraph3.mappingAt 2) ∧
     sumMapLens (pathGraph3.mergeVertices 0 2) = pathGraph3.orig_n ∧
     (∀ a, a ∉ adjAt (pathGraph3.mergeVertices 0 2).adj a)) ∧
    (∃ g', pathGraph3.addEdge ((0 : ℕ) : ℤ) ((2 : ℕ) : ℤ) = some g' ∧
      g'.n = pathGraph3.n ∧ g'.mapping = pathGraph3.mapping ∧
      g'.orig_n = pathGraph3.orig_n ∧
      AdjWF g' ∧ sumMapLens g' = pathGraph3.orig_n ∧ g'.n ≤ g'.orig_n) :=
  claim_C5 pathGraph3 0 2 (by decide) (by decide) (by decide) (by decide)
    (by decide) (by decide) (by decide) (by decide)

-- ## `Graph::heuristicColoring` (graph.cpp:179-225)

/-- `degree[i] = adj[i].size()` (graph.cpp:183-185). -/
def degList (g : Graph) : List ℕ := g.adj.map Finset.card

/-- One comparison step of the `pickNextVertex` lambda (graph.cpp:187-199):
an uncolored vertex replaces the current best when its saturation is
strictly larger, or equal with strictly larger degree. -/
def pickStep (color : List ℤ) (sat deg : List ℕ)
    (st : Option ℕ × ℤ × ℤ) (v : ℕ) : Option ℕ × ℤ × ℤ :=
  if color.getD v 0 = -1 ∧
      ((sat.getD v 0 : ℤ) > st.2.1 ∨
       ((sat.getD v 0 : ℤ) = st.2.1 ∧ (deg.getD v 0 : ℤ) > st.2.2))
  then (some v, ((sat.getD v 0 : ℤ), (deg.getD v 0 : ℤ)))
  else st

/-- The `pickNextVertex` lambda (graph.cpp:187-199), scanning vertices in
index order from `bestV = -1, bestSat = -1, bestDeg = -1`; the source
returns `-1` when every vertex is colored, modelled as `none`. -/
def pickNextVertex (n : ℕ) (color : List ℤ) (sat deg : List ℕ) : Option ℕ :=
  ((List.range n).foldl (pickStep color sat deg) (none, -1, -1)).1

theorem pickFold_some (color : List ℤ) (sat deg : List ℕ) :
    ∀ (l : List ℕ) (st0 : Option ℕ × ℤ × ℤ) (v : ℕ),
      (l.foldl (pickStep color sat deg) st0).1 = some v →
      st0.1 = some v ∨ (v ∈ l ∧ color.getD v 0 = -1) := by
  intro l
  induction l with
  | nil =>
    intro st0 v h
    exact Or.inl h
  | cons w t ih =>
    intro st0 v h
    rw [List.foldl_cons] at h
    rcases ih (pickStep color sat deg st0 w) v h with h1 | h1
    · unfold pickStep at h1
      split at h1 <;> rename_i hcond
      · have hwv : w = v := by simpa using h1
        subst hwv
        exact Or.inr ⟨List.mem_cons_self _ _, hcond.1⟩
      · exact Or.inl h1
    · exact Or.inr ⟨List.mem_cons_of_mem _ h1.1, h1.2⟩

theorem pickFold_someStable (color : List ℤ) (sat deg : List ℕ) :
    ∀ (l : List ℕ) (st0 : Option ℕ × ℤ × ℤ), st0.1.isSome →
      ((l.foldl (pickStep color sat deg) st0).1).isSome := by
  intro l
  induction l with
  | nil => intro st0 h; exact h
  | cons w t ih =>
    intro st0 h
    rw [List.foldl_cons]
    apply ih
    unfold pickStep
    split
    · simp
    · exact h

theorem pickFold_none (color : List ℤ) (sat deg : List ℕ) :
    ∀ (l : List ℕ),
      ((l.foldl (pickStep color sat deg) (none, -1, -1)).1 = none) →
      ∀ v ∈ l, color.getD v 0 ≠ -1 := by
  intro l
  induction l with
  | nil =>
    intro h v hv
    simp at hv
  | cons w t ih =>
    intro hres v hv
    rw [List.foldl_cons] at hres
    by_cases hcw : color.getD w 0 = -1
    · have hcond : pickStep color sat deg (none, -1, -1) w =
          (some w, ((sat.getD w 0 : ℤ), (deg.getD w 0 : ℤ))) := by
        unfold pickStep
        rw [if_pos ⟨hcw, Or.inl (show (sat.getD w 0 : ℤ) > -1 by omega)⟩]
      rw [hcond] at hres
      have hS := pickFold_someStable color sat deg t
        (some w, ((sat.getD w 0 : ℤ), (deg.getD w 0 : ℤ))) (by simp)
      rw [hres] at hS
      simp at hS
    · have hcond : pickStep color sat deg (none, -1, -1) w =
          (none, -1, -1) := by
        unfold pickStep
        rw [if_neg (fun hc => hcw hc.1)]
      rw [hcond] at hres
      rcases List.mem_cons.1 hv with rfl | hvt
      · exact hcw
      · exact ih hres v hvt

theorem pickNextVertex_some (n : ℕ) (color : List ℤ) (sat deg : List ℕ)
    (v : ℕ) (h : pickNextVertex n color sat deg = some v) :
    v < n ∧ color.getD v 0 = -1 := by
  unfold pickNextVertex at h
  rcases pickFold_some color sat deg (List.range n) (none, -1, -1) v h with
    h1 | h1
  · exact Option.noConfusion h1
  · exact ⟨List.mem_range.1 h1.1, h1.2⟩

theorem pickNextVertex_none (n : ℕ) (color : List ℤ) (sat deg : List ℕ)
    (h : pickNextVertex n color sat deg = none) :
    ∀ v < n, color.getD v 0 ≠ -1 := by
  intro v hv
  exact pickFold_none color sat deg (List.range n) h v (List.mem_range.2 hv)

/-- `while (c < nLocal && used[c]) c++;`  (graph.cpp:204-210): the smallest
color `c < n` not seen on a colored neighbour, or `n` if all are used. -/
def smallestFreeColor (n : ℕ) (adjv : Finset ℕ) (color : List ℤ) : ℕ :=
  ((List.range n).filter
    (fun c : ℕ => ¬ ∃ w ∈ adjv, color.getD w 0 = (c : ℤ))).headD n

/-- Saturation update after coloring `v` with `c` (graph.cpp:212-219): for
every neighbour `w` of `v` that is uncolored, if no neighbour `x` of `w`
carries color `c`, increment `saturation[w]`.  Here `color` is the vector
state after the assignment `color[v] = c` on line 211, exactly as in the
source.  The iteration order over the `unordered_set` is unspecified in the
source and the per-`w` updates commute, so we fix increasing index order
(for a well-formed graph every neighbour lies below `adj.length`). -/
def updateSaturation (adj : List (Finset ℕ)) (color : List ℤ) (sat : List ℕ)
    (v c : ℕ) : List ℕ :=
  ((List.range adj.length).filter (fun w => w ∈ adjAt adj v)).foldl (fun s w =>
    if color.getD w 0 = -1 ∧ ¬ ∃ x ∈ adjAt adj w, color.getD x 0 = (c : ℤ)
    then s.set w (s.getD w 0 + 1) else s) sat

/-- One iteration of the DSATUR main loop (graph.cpp:201-220).  The `break`
on `v == -1` is modelled by returning the state unchanged. -/
def dsaturStep (g : Graph) (st : List ℤ × List ℕ) : List ℤ × List ℕ :=
  match pickNextVertex g.n st.1 st.2 (degList g) with
  | none => st
  | some v =>
    (st.1.set v ((smallestFreeColor g.n (adjAt g.adj v) st.1 : ℕ) : ℤ),
     updateSaturation g.adj
       (st.1.set v ((smallestFreeColor g.n (adjAt g.adj v) st.1 : ℕ) : ℤ))
       st.2 v (smallestFreeColor g.n (adjAt g.adj v) st.1))

/-- `Graph::heuristicColoring` (graph.cpp:179-225): run the DSATUR loop for
`n` steps from the all-uncolored state and return `(max(colors)+1, colors)`. -/
def Graph.heuristicColoring (g : Graph) : ℤ × List ℤ :=
  ((((dsaturStep g)^[g.n]
      (List.replicate g.n (-1), List.replicate g.n 0)).1).foldl
    (fun acc cv => max acc (cv + 1)) 0,
   ((dsaturStep g)^[g.n] (List.replicate g.n (-1), List.replicate g.n 0)).1)

theorem updateSaturation_id (adj : List (Finset ℕ)) (color : List ℤ)
    (sat : List ℕ) (v c : ℕ)
    (h : ∀ w ∈ adjAt adj v, ∃ x ∈ adjAt adj w, color.getD x 0 = (c : ℤ)) :
    updateSaturation adj color sat v c = sat := by
  unfold updateSaturation
  have hmem : ∀ w ∈ (List.range adj.length).filter (fun w => w ∈ adjAt adj v),
      ∃ x ∈ adjAt adj w, color.getD x 0 = (c : ℤ) := by
    intro w hw
    exact h w (by simpa using (List.mem_filter.1 hw).2)
  generalize (List.range adj.length).filter (fun w => w ∈ adjAt adj v) = l
    at hmem
  induction l with
  | nil => rfl
  | cons w t ih =>
    rw [List.foldl_cons, if_neg (fun hc => hc.2 (hmem w (List.mem_cons_self _ _)))]
    exact ih (fun x hx => hmem x (List.mem_cons_of_mem _ hx))

/-- The increment in the saturation update is dead code: after line 211 the
just-colored vertex `v` itself carries color `c` and (by symmetry) lies in
`adj[w]` for every neighbour `w`, so the scan always finds color `c`. -/
theorem updateSaturation_eq_self (g : Graph) (hg : AdjWF g) (color : List ℤ)
    (sat : List ℕ) (v c : ℕ) (hv : color.getD v 0 = (c : ℤ)) :
    updateSaturation g.adj color sat v c = sat :=
  updateSaturation_id g.adj color sat v c
    (fun w hw => ⟨v, hg.symm' hw, hv⟩)

/-- The two-vertex graph with the single edge {0,1}. -/
def twoClique : Graph := ⟨2, 2, [{1}, {0}], [[0], [1]]⟩

/-- Claim C1 is violated by the code: on the two-vertex complete graph, the
first DSATUR step colors `v = 0` with `c = 0`; its neighbour `w = 1` is
uncolored and has no colored neighbour besides `v` carrying color `0`, so
the claim requires `saturation[1]` to become `1` — but the code leaves
`saturation = [0, 0]`, because the scan of `adj[1]` sees `v` itself
(already colored `c`) and suppresses the increment. -/
theorem claim_C1_bug :
    dsaturStep twoClique (List.replicate 2 (-1), List.replicate 2 0) =
      ([0, -1], [0, 0]) ∧
    ¬ (∀ w ∈ adjAt twoClique.adj 0,
        (([(0 : ℤ), -1].getD w 0 = -1 ∧
          ¬ ∃ x ∈ adjAt twoClique.adj w, x ≠ 0 ∧
            [(0 : ℤ), -1].getD x 0 = (0 : ℤ)) →
         (updateSaturation twoClique.adj [0, -1] [0, 0] 0 0).getD w 0 =
           [0, 0].getD w 0 + 1)) := by
  constructor
  · decide
  · decide

-- ## DSATUR correctness (claim C3)

/-- Number of uncolored vertices. -/
def uncoloredCard (n : ℕ) (color : List ℤ) : ℕ :=
  ((Finset.range n).filter (fun v => color.getD v 0 = -1)).card

/-- Partial properness: a colored vertex differs from all its neighbours. -/
def ProperSoFar (g : Graph) (color : List ℤ) : Prop :=
  ∀ u < g.n, ∀ w ∈ adjAt g.adj u,
    color.getD u 0 ≠ -1 → color.getD w 0 ≠ color.getD u 0

/-- Loop invariant of the DSATUR main loop. -/
def ColorInv (g : Graph) (color : List ℤ) : Prop :=
  color.length = g.n ∧
  (∀ v < g.n, color.getD v 0 = -1 ∨
    (0 ≤ color.getD v 0 ∧ color.getD v 0 < (g.n : ℤ))) ∧
  ProperSoFar g color

theorem smallestFreeColor_spec (n : ℕ) (adjv : Finset ℕ) (color : List ℤ)
    (hcard : adjv.card < n) :
    smallestFreeColor n adjv color < n ∧
      ∀ w ∈ adjv, color.getD w 0 ≠ (smallestFreeColor n adjv color : ℤ) := by
  have hex : ∃ c ∈ List.range n, ¬ ∃ w ∈ adjv, color.getD w 0 = (c : ℤ) := by
    by_contra hno
    push_neg at hno
    have hsub : Finset.range n ⊆ adjv.image (fun w => (color.getD w 0).toNat) := by
      intro c hc
      rw [Finset.mem_range] at hc
      obtain ⟨w, hw, hcol⟩ := hno c (List.mem_range.2 hc)
      exact Finset.mem_image.2 ⟨w, hw, by rw [hcol]; simp⟩
    have h1 := Finset.card_le_card hsub
    rw [Finset.card_range] at h1
    have h2 := Finset.card_image_le (s := adjv)
      (f := fun w => (color.getD w 0).toNat)
    omega
  obtain ⟨c, hcr, hcp⟩ := hex
  have hmem : c ∈ (List.range n).filter
      (fun c : ℕ => ¬ ∃ w ∈ adjv, color.getD w 0 = (c : ℤ)) :=
    List.mem_filter.2 ⟨hcr, by simpa using hcp⟩
  cases hL : (List.range n).filter
      (fun c : ℕ => ¬ ∃ w ∈ adjv, color.getD w 0 = (c : ℤ)) with
  | nil =>
    rw [hL] at hmem
    simp at hmem
  | cons a t =>
    have hhead : smallestFreeColor n adjv color = a := by
      unfold smallestFreeColor
      rw [hL]
      rfl
    have hamem : a ∈ (List.range n).filter
        (fun c : ℕ => ¬ ∃ w ∈ adjv, color.getD w 0 = (c : ℤ)) := by
      rw [hL]
      exact List.mem_cons_self a t
    have hspec := List.mem_filter.1 hamem
    constructor
    · rw [hhead]
      exact List.mem_range.1 hspec.1
    · rw [hhead]
      intro w hw hval
      have hp : ¬ ∃ w ∈ adjv, color.getD w 0 = (a : ℤ) := by
        simpa using hspec.2
      exact hp ⟨w, hw, hval⟩

theorem getD_replicate_lt {α : Type} (n i : ℕ) (a d : α) (h : i < n) :
    (List.replicate n a).getD i d = a := by
  induction n generalizing i with
  | zero => omega
  | succ m ih =>
    cases i with
    | zero => rfl
    | succ i' =>
      rw [List.replicate_succ, List.getD_cons_succ]
      exact ih i' (by omega)

theorem dsaturStep_inv (g : Graph) (hg : AdjWF g) (st : List ℤ × List ℕ)
    (hinv : ColorInv g st.1) :
    ColorInv g (dsaturStep g st).1 ∧
      (uncoloredCard g.n (dsaturStep g st).1 ≤ uncoloredCard g.n st.1 - 1 ∨
       (uncoloredCard g.n st.1 = 0 ∧ dsaturStep g st = st)) := by
  obtain ⟨hlen, hent, hprop⟩ := hinv
  cases hpick : pickNextVertex g.n st.1 st.2 (degList g) with
  | none =>
    have hstep : dsaturStep g st = st := by
      unfold dsaturStep
      rw [hpick]
    have hall := pickNextVertex_none g.n st.1 st.2 (degList g) hpick
    have hzero : uncoloredCard g.n st.1 = 0 := by
      unfold uncoloredCard
      rw [Finset.card_eq_zero, Finset.eq_empty_iff_forall_not_mem]
      intro v hv
      rw [Finset.mem_filter, Finset.mem_range] at hv
      exact hall v hv.1 hv.2
    rw [hstep]
    exact ⟨⟨hlen, hent, hprop⟩, Or.inr ⟨hzero, rfl⟩⟩
  | some v =>
    obtain ⟨hvn, hvuncol⟩ := pickNextVertex_some _ _ _ _ v hpick
    have hvlen : v < st.1.length := by omega
    have hcsub : adjAt g.adj v ⊆ (Finset.range g.n).erase v := by
      intro w hw
      exact Finset.mem_erase.2 ⟨fun he => hg.no_self' v (he ▸ hw),
        Finset.mem_range.2 (hg.mem_lt' hw)⟩
    have hcard : (adjAt g.adj v).card < g.n := by
      have h1 := Finset.card_le_card hcsub
      have h2 : ((Finset.range g.n).erase v).card = g.n - 1 := by
        rw [Finset.card_erase_of_mem (Finset.mem_range.2 hvn),
          Finset.card_range]
      omega
    obtain ⟨hclt, hcfree⟩ := smallestFreeColor_spec g.n (adjAt g.adj v)
      st.1 hcard
    have hstep : (dsaturStep g st).1 =
        st.1.set v ((smallestFreeColor g.n (adjAt g.adj v) st.1 : ℕ) : ℤ) := by
      unfold dsaturStep
      rw [hpick]
    rw [hstep]
    constructor
    · refine ⟨by simp [hlen], ?_, ?_⟩
      · intro u hu
        by_cases huv : u = v
        · subst huv
          rw [getD_set_self _ _ _ _ hvlen]
          right
          constructor
          · omega
          · exact_mod_cast hclt
        · rw [getD_set_ne _ v u _ _ (fun h => huv h.symm)]
          exact hent u hu
      · intro u hu w hw hucol
        by_cases huv : u = v
        · subst huv
          rw [getD_set_self _ _ _ _ hvlen]
          have hwv : w ≠ u := fun h => hg.no_self' u (h ▸ hw)
          rw [getD_set_ne _ u w _ _ (Ne.symm hwv)]
          exact hcfree w hw
        · rw [getD_set_ne _ v u _ _ (fun h => huv h.symm)] at hucol ⊢
          by_cases hwv : w = v
          · subst hwv
            rw [getD_set_self _ _ _ _ hvlen]
            have humem : u ∈ adjAt g.adj w := hg.symm' hw
            intro hcc
            exact hcfree u humem hcc.symm
          · rw [getD_set_ne _ v w _ _ (fun h => hwv h.symm)]
            exact hprop u hu w hw hucol
    · left
      have hfil : (Finset.range g.n).filter
          (fun u => (st.1.set v
            ((smallestFreeColor g.n (adjAt g.adj v) st.1 : ℕ) : ℤ)).getD u 0
              = -1) =
          ((Finset.range g.n).filter (fun u => st.1.getD u 0 = -1)).erase v := by
        ext u
        simp only [Finset.mem_filter, Finset.mem_erase, Finset.mem_range]
        constructor
        · rintro ⟨hu, hval⟩
          by_cases huv : u = v
          · subst huv
            rw [getD_set_self _ _ _ _ hvlen] at hval
            exact absurd hval (by omega)
          · rw [getD_set_ne _ v u _ _ (fun h => huv h.symm)] at hval
            exact ⟨huv, hu, hval⟩
        · rintro ⟨huv, hu, hval⟩
          refine ⟨hu, ?_⟩
          rw [getD_set_ne _ v u _ _ (fun h => huv h.symm)]
          exact hval
      have hvmem : v ∈ (Finset.range g.n).filter
          (fun u => st.1.getD u 0 = -1) :=
        Finset.mem_filter.2 ⟨Finset.mem_range.2 hvn, hvuncol⟩
      unfold uncoloredCard
      rw [hfil, Finset.card_erase_of_mem hvmem]

theorem dsaturIter_inv (g : Graph) (hg : AdjWF g) (k : ℕ) :
    ColorInv g (((dsaturStep g)^[k])
      (List.replicate g.n (-1), List.replicate g.n 0)).1 ∧
    uncoloredCard g.n (((dsaturStep g)^[k])
      (List.replicate g.n (-1), List.replicate g.n 0)).1 ≤ g.n - k := by
  induction k with
  | zero =>
    constructor
    · refine ⟨by simp, ?_, ?_⟩
      · intro v hv
        left
        exact getD_replicate_lt g.n v (-1) 0 hv
      · intro u hu w hw hucol
        exact absurd (getD_replicate_lt g.n u (-1) 0 hu) hucol
    · simp only [Function.iterate_zero_apply, Nat.sub_zero]
      unfold uncoloredCard
      calc ((Finset.range g.n).filter _).card ≤ (Finset.range g.n).card :=
            Finset.card_filter_le _ _
        _ = g.n := Finset.card_range g.n
  | succ m ih =>
    rw [Function.iterate_succ_apply']
    obtain ⟨hci, hcard⟩ := ih
    obtain ⟨hci', hdec⟩ := dsaturStep_inv g hg _ hci
    refine ⟨hci', ?_⟩
    rcases hdec with h | ⟨hzero, hid⟩
    · omega
    · rw [hid]
      omega

theorem foldl_max_init (l : List ℤ) (a : ℤ) :
    a ≤ l.foldl (fun acc cv => max acc (cv + 1)) a := by
  induction l generalizing a with
  | nil => exact le_refl a
  | cons y t ih =>
    rw [List.foldl_cons]
    exact le_trans (le_max_left a (y + 1)) (ih (max a (y + 1)))

theorem foldl_max_mem (l : List ℤ) (a x : ℤ) (hx : x ∈ l) :
    x + 1 ≤ l.foldl (fun acc cv => max acc (cv + 1)) a := by
  induction l generalizing a with
  | nil => simp at hx
  | cons y t ih =>
    rw [List.foldl_cons]
    rcases List.mem_cons.1 hx with rfl | hxt
    · exact le_trans (le_max_right a (x + 1)) (foldl_max_init t _)
    · exact ih _ hxt

theorem foldl_max_le (l : List ℤ) (a b : ℤ) (ha : a ≤ b)
    (h : ∀ x ∈ l, x + 1 ≤ b) :
    l.foldl (fun acc cv => max acc (cv + 1)) a ≤ b := by
  induction l generalizing a with
  | nil => exact ha
  | cons y t ih =>
    rw [List.foldl_cons]
    exact ih (max a (y + 1)) (max_le ha (h y (List.mem_cons_self _ _)))
      (fun x hx => h x (List.mem_cons_of_mem _ hx))

theorem foldl_max_cases (l : List ℤ) (a : ℤ) :
    l.foldl (fun acc cv => max acc (cv + 1)) a = a ∨
      ∃ x ∈ l, l.foldl (fun acc cv => max acc (cv + 1)) a = x + 1 := by
  induction l generalizing a with
  | nil => exact Or.inl rfl
  | cons y t ih =>
    rw [List.foldl_cons]
    rcases le_or_lt (y + 1) a with hle | hlt
    · rw [max_eq_left hle]
      rcases ih a with h | ⟨x, hx, hval⟩
      · exact Or.inl h
      · exact Or.inr ⟨x, List.mem_cons_of_mem _ hx, hval⟩
    · rw [max_eq_right (le_of_lt hlt)]
      rcases ih (y + 1) with h | ⟨x, hx, hval⟩
      · exact Or.inr ⟨y, List.mem_cons_self _ _, h⟩
      · exact Or.inr ⟨x, List.mem_cons_of_mem _ hx, hval⟩

theorem getD_mem {α : Type} (l : List α) (i : ℕ) (d : α) (h : i < l.length) :
    l.getD i d ∈ l := by
  rw [List.getD_eq_getElem l d h]
  exact List.getElem_mem h

theorem mem_getD {α : Type} (l : List α) (x d : α) (hx : x ∈ l) :
    ∃ i, i < l.length ∧ l.getD i d = x := by
  obtain ⟨i, hi, hval⟩ := List.mem_iff_getElem.1 hx
  exact ⟨i, hi, by rw [List.getD_eq_getElem l d hi]; exact hval⟩

/-- Full specification of `Graph::heuristicColoring`, shared by the claims
about the DSATUR bound: the returned vector is a proper coloring of the
current graph, every assigned color lies in `[0, k)`, `k ≤ n`, and `k` is
exactly `max(colors)+1` (`0` for the empty graph). -/
theorem heuristicColoring_spec (g : Graph) (hg : AdjWF g) (k : ℤ)
    (colors : List ℤ) (heq : g.heuristicColoring = (k, colors)) :
    colors.length = g.n ∧
    (∀ v < g.n, 0 ≤ colors.getD v 0 ∧ colors.getD v 0 < (g.n : ℤ)) ∧
    (∀ u < g.n, ∀ w ∈ adjAt g.adj u, colors.getD u 0 ≠ colors.getD w 0) ∧
    (∀ v < g.n, colors.getD v 0 + 1 ≤ k) ∧
    k ≤ (g.n : ℤ) ∧
    (g.n = 0 → k = 0) ∧
    (0 < g.n → ∃ v < g.n, colors.getD v 0 + 1 = k) := by
  obtain ⟨⟨hlen, hent, hprop⟩, hcard⟩ := dsaturIter_inv g hg g.n
  have hfst := congrArg Prod.fst heq
  have hsnd := congrArg Prod.snd heq
  simp only [Graph.heuristicColoring] at hfst hsnd
  rw [hsnd] at hfst hlen hent hprop hcard
  have hk : k = colors.foldl (fun acc cv => max acc (cv + 1)) 0 := hfst.symm
  -- every vertex is colored after n steps
  have hzero : uncoloredCard g.n colors = 0 := by omega
  have hallcol : ∀ v < g.n, colors.getD v 0 ≠ -1 := by
    intro v hv hcv
    have : v ∈ (Finset.range g.n).filter (fun v => colors.getD v 0 = -1) :=
      Finset.mem_filter.2 ⟨Finset.mem_range.2 hv, hcv⟩
    unfold uncoloredCard at hzero
    rw [Finset.card_eq_zero] at hzero
    rw [hzero] at this
    simp at this
  have hrange : ∀ v < g.n, 0 ≤ colors.getD v 0 ∧
      colors.getD v 0 < (g.n : ℤ) := by
    intro v hv
    rcases hent v hv with h | h
    · exact absurd h (hallcol v hv)
    · exact h
  -- elements of the list are the indexed entries
  have hel : ∀ x ∈ colors, ∃ v, v < g.n ∧ colors.getD v 0 = x := by
    intro x hx
    obtain ⟨v, hv, hval⟩ := mem_getD colors x 0 hx
    exact ⟨v, by omega, hval⟩
  refine ⟨hlen, hrange, ?_, ?_, ?_, ?_, ?_⟩
  · intro u hu w hw
    exact fun hcc => hprop u hu w hw (hallcol u hu) hcc.symm
  · intro v hv
    rw [hk]
    exact foldl_max_mem colors 0 _ (getD_mem colors v 0 (by omega))
  · rw [hk]
    apply foldl_max_le colors 0 (g.n : ℤ) (by positivity)
    intro x hx
    obtain ⟨v, hv, hval⟩ := hel x hx
    have := (hrange v hv).2
    omega
  · intro hn0
    rw [hk]
    have : colors = [] := List.eq_nil_of_length_eq_zero (by omega)
    rw [this]
    rfl
  · intro hn0
    rw [hk]
    rcases foldl_max_cases colors 0 with h | ⟨x, hx, hval⟩
    · exfalso
      have h0 := foldl_max_mem colors 0 _ (getD_mem colors 0 0 (by omega))
      have := (hrange 0 hn0).1
      omega
    · obtain ⟨v, hv, hvx⟩ := hel x hx
      exact ⟨v, hv, by rw [hvx, ← hval]⟩

/-- Claim C3: for a well-formed symmetric self-loop-free graph,
`heuristicColoring` returns `(k, colors)` with `colors` a proper coloring
of the current graph, every assigned color in `[0, k)`, `k ≤ n`, and
`k = max(colors)+1` (`0` when `n = 0`). -/
theorem claim_C3 (g : Graph) (hg : AdjWF g) (k : ℤ) (colors : List ℤ)
    (heq : g.heuristicColoring = (k, colors)) :
    colors.length = g.n ∧
    (∀ u < g.n, ∀ w ∈ adjAt g.adj u, colors.getD u 0 ≠ colors.getD w 0) ∧
    (∀ v < g.n, 0 ≤ colors.getD v 0 ∧ colors.getD v 0 < k) ∧
    k ≤ (g.n : ℤ) ∧
    (g.n = 0 → k = 0) ∧
    (0 < g.n → ∃ v < g.n, colors.getD v 0 + 1 = k) ∧
    (∀ v < g.n, colors.getD v 0 + 1 ≤ k) := by
  obtain ⟨h1, h2, h3, h4, h5, h6, h7⟩ := heuristicColoring_spec g hg k colors heq
  refine ⟨h1, h3, ?_, h5, h6, h7, h4⟩
  intro v hv
  have ha := (h2 v hv).1
  have hb := h4 v hv
  exact ⟨ha, by omega⟩

/-- Witness for C3 on the concrete path graph: DSATUR picks vertex 1 first
(largest degree), colors it 0, then colors the endpoints 1. -/
theorem claim_C3_witness :
    ([(1 : ℤ), 0, 1].length = pathGraph3.n ∧
    (∀ u < pathGraph3.n, ∀ w ∈ adjAt pathGraph3.adj u,
      [(1 : ℤ), 0, 1].getD u 0 ≠ [(1 : ℤ), 0, 1].getD w 0) ∧
    (∀ v < pathGraph3.n, 0 ≤ [(1 : ℤ), 0, 1].getD v 0 ∧
      [(1 : ℤ), 0, 1].getD v 0 < 2) ∧
    (2 : ℤ) ≤ (pathGraph3.n : ℤ) ∧
    (pathGraph3.n = 0 → (2 : ℤ) = 0) ∧
    (0 < pathGraph3.n → ∃ v < pathGraph3.n,
      [(1 : ℤ), 0, 1].getD v 0 + 1 = 2) ∧
    (∀ v < pathGraph3.n, [(1 : ℤ), 0, 1].getD v 0 + 1 ≤ 2)) :=
  claim_C3 pathGraph3 (by decide) 2 [1, 0, 1] (by decide)

-- ## `bronKerbosch` and `Graph::heuristicMaxClique` (graph.cpp:124-171, 233-242)

/-- Pivot selection (graph.cpp:134-150): scan `P ++ X` keeping the element
maximising `|P ∩ N(u)|`; the source starts from `pivot = -1, maxCount = -1`,
so the first element always wins and `none` arises only for `P ∪ X = ∅`
(unreachable at the call site). -/
def bkPivot (adj : List (Finset ℕ)) (P X : List ℕ) : Option ℕ :=
  ((P ++ X).foldl (fun st u =>
    if ((P.filter (fun w => w ∈ adjAt adj u)).length : ℤ) > st.2
    then (some u, ((P.filter (fun w => w ∈ adjAt adj u)).length : ℤ))
    else st) (none, -1)).1

/-- One iteration of the loop over `P \ N(pivot)` (graph.cpp:155-170),
abstracted over the recursive call `bkRec`.  State: current `P`, current
`X`, a flag recording that `break` has fired, and the best clique so far.
The source recurses with `v` pushed onto `R`, `P` and `X` intersected with
`N(v)`, then removes every copy of `v` from `P`
(`erase(remove(...))`), appends `v` to `X`, and breaks when `P` is empty. -/
def bkStep (adj : List (Finset ℕ))
    (bkRec : List ℕ → List ℕ → List ℕ → ℕ × List ℕ → ℕ × List ℕ)
    (R : List ℕ) (st : List ℕ × List ℕ × Bool × (ℕ × List ℕ)) (v : ℕ) :
    List ℕ × List ℕ × Bool × (ℕ × List ℕ) :=
  if st.2.2.1 then st
  else
    (st.1.filter (fun w => w ≠ v), st.2.1 ++ [v],
     decide (st.1.filter (fun w => w ≠ v) = []),
     bkRec (R ++ [v]) (st.1.filter (fun w => w ∈ adjAt adj v))
       (st.2.1.filter (fun w => w ∈ adjAt adj v)) st.2.2.2)

/-- `bronKerbosch` (graph.cpp:124-171), fuel-indexed: with fuel exhausted
the current best is returned unchanged.  The source recursion always
terminates (each nested call strictly shrinks `P`), so fuel
`|P| + 1` reproduces it exactly. -/
def bronKerbosch (adj : List (Finset ℕ)) :
    ℕ → List ℕ → List ℕ → List ℕ → ℕ × List ℕ → ℕ × List ℕ
  | 0, _, _, _, best => best
  | fuel + 1, R, P, X, best =>
    if P = [] ∧ X = [] then
      (if R.length > best.1 then (R.length, R) else best)
    else
      ((P.filter (fun v => v ∉ adjAt adj ((bkPivot adj P X).getD 0))).foldl
        (bkStep adj (fun R' P' X' b => bronKerbosch adj fuel R' P' X' b) R)
        (P, X, false, best)).2.2.2

/-- `Graph::heuristicMaxClique` (graph.cpp:233-242): Bron-Kerbosch from
`R = X = ∅`, `P = {0, …, adj.size()-1}`, best initialised to
`(0, [])`. -/
def Graph.heuristicMaxClique (g : Graph) : ℕ × List ℕ :=
  bronKerbosch g.adj (g.adj.length + 1) [] (List.range g.adj.length) [] (0, [])

/-- `R` is a clique of the adjacency structure. -/
def IsClique (adj : List (Finset ℕ)) (R : List ℕ) : Prop :=
  ∀ a ∈ R, ∀ b ∈ R, a ≠ b → b ∈ adjAt adj a

/-- The tracked best is a genuine clique with its recorded size. -/
def GoodBest (g : Graph) (best : ℕ × List ℕ) : Prop :=
  IsClique g.adj best.2 ∧ best.2.Nodup ∧ (∀ v ∈ best.2, v < g.n) ∧
    best.1 = best.2.length

/-- Invariant of a `bronKerbosch` call: `R` is a clique of in-range
vertices, and every candidate or excluded vertex is in range and adjacent
(both ways) to all of `R`. -/
def BKCtx (g : Graph) (R P X : List ℕ) : Prop :=
  IsClique g.adj R ∧ R.Nodup ∧ (∀ v ∈ R, v < g.n) ∧
  (∀ v ∈ P ++ X, v < g.n ∧
    ∀ r ∈ R, v ∈ adjAt g.adj r ∧ r ∈ adjAt g.adj v)

theorem bkFold_good (g : Graph) (hg : AdjWF g)
    (bkRec : List ℕ → List ℕ → List ℕ → ℕ × List ℕ → ℕ × List ℕ)
    (hA : ∀ R' P' X' best', BKCtx g R' P' X' → GoodBest g best' →
      GoodBest g (bkRec R' P' X' best'))
    (R : List ℕ) (hRc : IsClique g.adj R) (hRn : R.Nodup)
    (hRb : ∀ v ∈ R, v < g.n) :
    ∀ (vs : List ℕ) (st : List ℕ × List ℕ × Bool × (ℕ × List ℕ)),
      (∀ v ∈ st.1 ++ st.2.1, v < g.n ∧
        ∀ r ∈ R, v ∈ adjAt g.adj r ∧ r ∈ adjAt g.adj v) →
      (∀ v ∈ vs, v < g.n ∧
        ∀ r ∈ R, v ∈ adjAt g.adj r ∧ r ∈ adjAt g.adj v) →
      GoodBest g st.2.2.2 →
      GoodBest g ((vs.foldl (bkStep g.adj bkRec R) st).2.2.2) := by
  intro vs
  induction vs with
  | nil =>
    intro st hPX hvs hbest
    exact hbest
  | cons v rest ih =>
    intro st hPX hvs hbest
    rw [List.foldl_cons]
    have hv := hvs v (List.mem_cons_self _ _)
    by_cases hstop : st.2.2.1
    · have hstep : bkStep g.adj bkRec R st v = st := by
        unfold bkStep
        rw [if_pos hstop]
      rw [hstep]
      exact ih st hPX (fun w hw => hvs w (List.mem_cons_of_mem _ hw)) hbest
    · have hstep : bkStep g.adj bkRec R st v =
          (st.1.filter (fun w => w ≠ v), st.2.1 ++ [v],
           decide (st.1.filter (fun w => w ≠ v) = []),
           bkRec (R ++ [v]) (st.1.filter (fun w => w ∈ adjAt g.adj v))
             (st.2.1.filter (fun w => w ∈ adjAt g.adj v)) st.2.2.2) := by
        unfold bkStep
        rw [if_neg hstop]
      rw [hstep]
      -- the recursive call produces a good best
      have hvnotR : v ∉ R := by
        intro hvR
        exact hg.no_self' v (hv.2 v hvR).1
      have hctx' : BKCtx g (R ++ [v])
          (st.1.filter (fun w => w ∈ adjAt g.adj v))
          (st.2.1.filter (fun w => w ∈ adjAt g.adj v)) := by
        refine ⟨?_, ?_, ?_, ?_⟩
        · intro a ha b hb hne
          rcases List.mem_append.1 ha with haR | haV
          · rcases List.mem_append.1 hb with hbR | hbV
            · exact hRc a haR b hbR hne
            · have hbv : b = v := by simpa using hbV
              subst hbv
              exact (hv.2 a haR).1
          · have hav : a = v := by simpa using haV
            rcases List.mem_append.1 hb with hbR | hbV
            · rw [hav]
              exact (hv.2 b hbR).2
            · have hbv : b = v := by simpa using hbV
              exact absurd (hav.trans hbv.symm) hne
        · rw [List.nodup_append]
          refine ⟨hRn, List.nodup_singleton v, ?_⟩
          intro a haR hav
          have : a = v := by simpa using hav
          exact hvnotR (this ▸ haR)
        · intro w hw
          rcases List.mem_append.1 hw with hwR | hwV
          · exact hRb w hwR
          · have : w = v := by simpa using hwV
            exact this ▸ hv.1
        · intro w hw
          have hw' : w ∈ st.1 ++ st.2.1 ∧ w ∈ adjAt g.adj v := by
            rcases List.mem_append.1 hw with h | h
            · have := List.mem_filter.1 h
              exact ⟨List.mem_append.2 (Or.inl this.1), by simpa using this.2⟩
            · have := List.mem_filter.1 h
              exact ⟨List.mem_append.2 (Or.inr this.1), by simpa using this.2⟩
          obtain ⟨hwPX, hwadj⟩ := hw'
          have hbase := hPX w hwPX
          refine ⟨hbase.1, ?_⟩
          intro r hr
          rcases List.mem_append.1 hr with hrR | hrV
          · exact hbase.2 r hrR
          · have : r = v := by simpa using hrV
            subst this
            exact ⟨hwadj, hg.symm' hwadj⟩
      have hbest1 := hA (R ++ [v]) _ _ _ hctx' hbest
      -- continue the fold with the shrunk state
      apply ih
      · intro w hw
        rcases List.mem_append.1 hw with h | h
        · have := List.mem_filter.1 h
          exact hPX w (List.mem_append.2 (Or.inl this.1))
        · rcases List.mem_append.1 h with h2 | h2
          · exact hPX w (List.mem_append.2 (Or.inr h2))
          · have : w = v := by simpa using h2
            exact this ▸ hv
      · exact fun w hw => hvs w (List.mem_cons_of_mem _ hw)
      · exact hbest1

theorem bronKerbosch_good (g : Graph) (hg : AdjWF g) :
    ∀ (fuel : ℕ) (R P X : List ℕ) (best : ℕ × List ℕ),
      BKCtx g R P X → GoodBest g best →
      GoodBest g (bronKerbosch g.adj fuel R P X best) := by
  intro fuel
  induction fuel with
  | zero =>
    intro R P X best hctx hbest
    exact hbest
  | succ f ih =>
    intro R P X best hctx hbest
    obtain ⟨hRc, hRn, hRb, hPX⟩ := hctx
    show GoodBest g (bronKerbosch g.adj (f + 1) R P X best)
    rw [bronKerbosch]
    split
    · split
      · exact ⟨hRc, hRn, hRb, rfl⟩
      · exact hbest
    · apply bkFold_good g hg _ ?hA R hRc hRn hRb _ _ ?hPX ?hvs hbest
      case hA =>
        intro R' P' X' best' hctx' hbest'
        exact ih R' P' X' best' hctx' hbest'
      case hPX =>
        exact hPX
      case hvs =>
        intro v hv
        exact hPX v (List.mem_append.2 (Or.inl (List.mem_filter.1 hv).1))

/-- Claim C4: for a well-formed symmetric self-loop-free graph,
`heuristicMaxClique` returns `(size, C)` with `C` a list of distinct
in-range vertices that are pairwise adjacent, and `size = |C|`. -/
theorem claim_C4 (g : Graph) (hg : AdjWF g) (size : ℕ) (C : List ℕ)
    (heq : g.heuristicMaxClique = (size, C)) :
    C.Nodup ∧ (∀ v ∈ C, v < g.n) ∧
    (∀ a ∈ C, ∀ b ∈ C, a ≠ b → b ∈ adjAt g.adj a) ∧ size = C.length := by
  have hgood := bronKerbosch_good g hg (g.adj.length + 1) []
    (List.range g.adj.length) [] (0, [])
    ⟨fun a ha => absurd ha (List.not_mem_nil a),
     List.nodup_nil,
     fun v hv => absurd hv (List.not_mem_nil v),
     ?_⟩
    ⟨fun a ha => absurd ha (List.not_mem_nil a),
     List.nodup_nil,
     fun v hv => absurd hv (List.not_mem_nil v), rfl⟩
  · unfold Graph.heuristicMaxClique at heq
    rw [heq] at hgood
    obtain ⟨h1, h2, h3, h4⟩ := hgood
    exact ⟨h2, h3, h1, h4⟩
  · intro v hv
    have hvr : v < g.adj.length := by
      rcases List.mem_append.1 hv with h | h
      · exact List.mem_range.1 h
      · exact absurd h (List.not_mem_nil v)
    refine ⟨by rw [← hg.1]; exact hvr, ?_⟩
    intro r hr
    exact absurd hr (List.not_mem_nil r)

/-- Witness for C4 on the two-vertex complete graph, whose maximum clique
is the whole vertex set. -/
theorem claim_C4_witness :
    [0, 1].Nodup ∧ (∀ v ∈ [0, 1], v < twoClique.n) ∧
    (∀ a ∈ [0, 1], ∀ b ∈ [0, 1], a ≠ b → b ∈ adjAt twoClique.adj a) ∧
    2 = [0, 1].length :=
  claim_C4 twoClique (by decide) 2 [0, 1] (by decide)

-- ## `selectBranchingPair` (branch_and_bound.cpp:31-49)

/-- The scan order of `selectBranchingPair`: all pairs `(i, j)` with
`i < j < n`, outer index ascending, inner ascending. -/
def allPairs (n : ℕ) : List (ℕ × ℕ) :=
  (List.range n).flatMap
    (fun i => (List.range (n - (i + 1))).map (fun k => (i, i + 1 + k)))

/-- Degree of a current vertex, `adj[v].size()`. -/
def degOf (g : Graph) (v : ℕ) : ℕ := (adjAt g.adj v).card

/-- `degrees[i] + degrees[j]` as computed by the source
(branch_and_bound.cpp:33-39), reading the precomputed degree vector. -/
def sbpScore (g : Graph) (p : ℕ × ℕ) : ℤ :=
  ((g.adj.map Finset.card).getD p.1 0 : ℤ) +
    ((g.adj.map Finset.card).getD p.2 0 : ℤ)

/-- The pair `(i, j)` is examined and non-adjacent:
`g.adj[i].find(j) == g.adj[i].end()`. -/
def NonAdjPair (g : Graph) (p : ℕ × ℕ) : Prop := p.2 ∉ adjAt g.adj p.1

instance (g : Graph) (p : ℕ × ℕ) : Decidable (NonAdjPair g p) := by
  unfold NonAdjPair; infer_instance

/-- Strict lexicographic order on scanned pairs. -/
def lexLt (p q : ℕ × ℕ) : Prop := p.1 < q.1 ∨ (p.1 = q.1 ∧ p.2 < q.2)

/-- One comparison of the scan (branch_and_bound.cpp:36-46): a non-adjacent
pair with strictly larger degree sum replaces the current best. -/
def sbpStep (g : Graph) (st : ℤ × ℤ × ℤ) (p : ℕ × ℕ) : ℤ × ℤ × ℤ :=
  if NonAdjPair g p then
    (if sbpScore g p > st.2.2 then ((p.1 : ℤ), (p.2 : ℤ), sbpScore g p)
     else st)
  else st

/-- `selectBranchingPair` (branch_and_bound.cpp:31-49): scan all `i < j`,
starting from `v1 = v2 = -1, bestScore = -1`, and return `(v1, v2)`. -/
def selectBranchingPair (g : Graph) : ℤ × ℤ :=
  (((allPairs g.n).foldl (sbpStep g) (-1, -1, -1)).1,
   ((allPairs g.n).foldl (sbpStep g) (-1, -1, -1)).2.1)

theorem mem_allPairs (n : ℕ) (p : ℕ × ℕ) :
    p ∈ allPairs n ↔ p.1 < p.2 ∧ p.2 < n := by
  obtain ⟨a, b⟩ := p
  unfold allPairs
  rw [List.mem_flatMap]
  constructor
  · rintro ⟨i, hi, hmem⟩
    rw [List.mem_map] at hmem
    obtain ⟨k, hk, hpair⟩ := hmem
    rw [List.mem_range] at hi hk
    obtain ⟨rfl, rfl⟩ := Prod.mk.injEq .. ▸ hpair
    constructor <;> simp <;> omega
  · rintro ⟨h1, h2⟩
    refine ⟨a, List.mem_range.2 (by omega), ?_⟩
    rw [List.mem_map]
    refine ⟨b - (a + 1), List.mem_range.2 (by omega), ?_⟩
    have hb : a + 1 + (b - (a + 1)) = b := by omega
    rw [hb]

theorem allPairs_pairwise (n : ℕ) : (allPairs n).Pairwise lexLt := by
  unfold allPairs
  rw [show (List.range n).flatMap
      (fun i => (List.range (n - (i + 1))).map (fun k => (i, i + 1 + k))) =
      ((List.range n).map
        (fun i => (List.range (n - (i + 1))).map (fun k => (i, i + 1 + k)))).flatten
    from rfl]
  rw [List.pairwise_flatten]
  constructor
  · intro l' hl'
    rw [List.mem_map] at hl'
    obtain ⟨i, hi, rfl⟩ := hl'
    apply List.Pairwise.map _ ?_ (List.pairwise_lt_range (n - (i + 1)))
    intro a b hab
    exact Or.inr ⟨rfl, by omega⟩
  · apply List.Pairwise.map _ ?_ (List.pairwise_lt_range n)
    intro a b hab
    intro x hx y hy
    rw [List.mem_map] at hx hy
    obtain ⟨ka, _, rfl⟩ := hx
    obtain ⟨kb, _, rfl⟩ := hy
    exact Or.inl hab

theorem sbpScore_nonneg (g : Graph) (p : ℕ × ℕ) : 0 ≤ sbpScore g p := by
  unfold sbpScore
  positivity

/-- Running summary of the scan over the processed prefix. -/
def SBPSummary (g : Graph) (s : List (ℕ × ℕ)) (st : ℤ × ℤ × ℤ) : Prop :=
  (st = (-1, -1, -1) ∧ ∀ p ∈ s, ¬ NonAdjPair g p) ∨
  (∃ p0 ∈ s, NonAdjPair g p0 ∧
    st = ((p0.1 : ℤ), (p0.2 : ℤ), sbpScore g p0) ∧
    ∀ p ∈ s, NonAdjPair g p → sbpScore g p ≤ sbpScore g p0 ∧
      (sbpScore g p = sbpScore g p0 → p0 = p ∨ lexLt p0 p))

theorem sbpFold (g : Graph) :
    ∀ (rest seen : List (ℕ × ℕ)) (st : ℤ × ℤ × ℤ),
      SBPSummary g seen st →
      (seen ++ rest).Pairwise lexLt →
      SBPSummary g (seen ++ rest) (rest.foldl (sbpStep g) st) := by
  intro rest
  induction rest with
  | nil =>
    intro seen st hsum hpw
    simpa using hsum
  | cons q tail ih =>
    intro seen st hsum hpw
    have hassoc : seen ++ q :: tail = (seen ++ [q]) ++ tail := by simp
    rw [hassoc, List.foldl_cons]
    have hlexq : ∀ p ∈ seen, lexLt p q := by
      intro p hp
      exact (List.pairwise_append.1 hpw).2.2 p hp q (List.mem_cons_self _ _)
    apply ih (seen ++ [q]) (sbpStep g st q) ?_ (by rw [← hassoc]; exact hpw)
    by_cases hadj : NonAdjPair g q
    · by_cases hbig : sbpScore g q > st.2.2
      · have hstep : sbpStep g st q =
            ((q.1 : ℤ), (q.2 : ℤ), sbpScore g q) := by
          unfold sbpStep
          rw [if_pos hadj, if_pos hbig]
        rw [hstep]
        right
        refine ⟨q, List.mem_append.2 (Or.inr (List.mem_cons_self _ _)), hadj,
          rfl, ?_⟩
        intro p hp hpna
        rcases List.mem_append.1 hp with hps | hpq
        · rcases hsum with ⟨hst, hnone⟩ | ⟨p0, hp0s, hp0na, hp0st, hmax⟩
          · exact absurd hpna (hnone p hps)
          · have hsc := (hmax p hps hpna).1
            have hst22 : st.2.2 = sbpScore g p0 := by rw [hp0st]
            constructor
            · omega
            · intro heqs
              omega
        · have hpq' : p = q := by simpa using hpq
          subst hpq'
          exact ⟨le_refl _, fun _ => Or.inl rfl⟩
      · have hstep : sbpStep g st q = st := by
          unfold sbpStep
          rw [if_pos hadj, if_neg hbig]
        rw [hstep]
        rcases hsum with ⟨hst, hnone⟩ | ⟨p0, hp0s, hp0na, hp0st, hmax⟩
        · exfalso
          have h0 := sbpScore_nonneg g q
          have : st.2.2 = (-1 : ℤ) := by rw [hst]
          omega
        · right
          refine ⟨p0, List.mem_append.2 (Or.inl hp0s), hp0na, hp0st, ?_⟩
          intro p hp hpna
          rcases List.mem_append.1 hp with hps | hpq
          · exact hmax p hps hpna
          · have hpq' : p = q := by simpa using hpq
            subst hpq'
            have hst22 : st.2.2 = sbpScore g p0 := by rw [hp0st]
            constructor
            · omega
            · intro _
              exact Or.inr (hlexq p0 hp0s)
    · have hstep : sbpStep g st q = st := by
        unfold sbpStep
        rw [if_neg hadj]
      rw [hstep]
      rcases hsum with ⟨hst, hnone⟩ | ⟨p0, hp0s, hp0na, hp0st, hmax⟩
      · left
        refine ⟨hst, ?_⟩
        intro p hp
        rcases List.mem_append.1 hp with hps | hpq
        · exact hnone p hps
        · have : p = q := by simpa using hpq
          exact this ▸ hadj
      · right
        refine ⟨p0, List.mem_append.2 (Or.inl hp0s), hp0na, hp0st, ?_⟩
        intro p hp hpna
        rcases List.mem_append.1 hp with hps | hpq
        · exact hmax p hps hpna
        · have : p = q := by simpa using hpq
          exact absurd (this ▸ hpna) hadj

theorem selectBranchingPair_summary (g : Graph) :
    SBPSummary g (allPairs g.n)
      ((allPairs g.n).foldl (sbpStep g) (-1, -1, -1)) := by
  have h := sbpFold g (allPairs g.n) [] (-1, -1, -1)
    (Or.inl ⟨rfl, fun p hp => absurd hp (List.not_mem_nil p)⟩)
    (by simpa using allPairs_pairwise g.n)
  simpa using h

theorem sbpScore_eq (g : Graph) (hlen : g.adj.length = g.n) (p : ℕ × ℕ)
    (h1 : p.1 < g.n) (h2 : p.2 < g.n) :
    sbpScore g p = (degOf g p.1 : ℤ) + (degOf g p.2 : ℤ) := by
  unfold sbpScore degOf adjAt
  have hb1 : p.1 < g.adj.length := by omega
  have hb2 : p.2 < g.adj.length := by omega
  have e1 : (g.adj.map Finset.card).getD p.1 0 = (g.adj.getD p.1 ∅).card := by
    rw [List.getD_eq_getElem (g.adj.map Finset.card) 0
        (by rw [List.length_map]; exact hb1),
      List.getElem_map, List.getD_eq_getElem g.adj ∅ hb1]
  have e2 : (g.adj.map Finset.card).getD p.2 0 = (g.adj.getD p.2 ∅).card := by
    rw [List.getD_eq_getElem (g.adj.map Finset.card) 0
        (by rw [List.length_map]; exact hb2),
      List.getElem_map, List.getD_eq_getElem g.adj ∅ hb2]
  rw [e1, e2]

/-- Claim C8: `selectBranchingPair` returns `(-1, -1)` exactly when the
graph is complete; otherwise it returns the non-adjacent pair `i < j`
maximising the degree sum, and among maximisers the lexicographically
smallest pair of the scan. -/
theorem claim_C8 (g : Graph) (hg : AdjWF g) :
    (selectBranchingPair g = (-1, -1) ↔
      ∀ i j, i < g.n → j < g.n → i ≠ j → j ∈ adjAt g.adj i) ∧
    ((∃ i j, i < j ∧ j < g.n ∧ j ∉ adjAt g.adj i) →
      ∃ v1 v2 : ℕ, selectBranchingPair g = ((v1 : ℤ), (v2 : ℤ)) ∧
        v1 < v2 ∧ v2 < g.n ∧ v2 ∉ adjAt g.adj v1 ∧
        (∀ a b, a < b → b < g.n → b ∉ adjAt g.adj a →
          degOf g a + degOf g b ≤ degOf g v1 + degOf g v2) ∧
        (∀ a b, a < b → b < g.n → b ∉ adjAt g.adj a →
          degOf g a + degOf g b = degOf g v1 + degOf g v2 →
          v1 < a ∨ (v1 = a ∧ v2 ≤ b))) := by
  have hsum := selectBranchingPair_summary g
  have hlen : g.adj.length = g.n := hg.1
  constructor
  · constructor
    · intro hres
      rcases hsum with ⟨hst, hnone⟩ | ⟨p0, hp0, hp0na, hp0st, _⟩
      · intro i j hi hj hij
        by_cases hlt : i < j
        · by_contra hna
          exact (hnone (i, j) ((mem_allPairs g.n (i, j)).2 ⟨hlt, hj⟩)) hna
        · have hlt' : j < i := by omega
          by_contra hna
          have hna' : NonAdjPair g (j, i) :=
            fun hmem => hna (hg.symm' hmem)
          exact (hnone (j, i) ((mem_allPairs g.n (j, i)).2 ⟨hlt', hi⟩)) hna'
      · exfalso
        unfold selectBranchingPair at hres
        rw [hp0st] at hres
        have hfst := congrArg Prod.fst hres
        simp only [Prod.fst] at hfst
        omega
    · intro hcomp
      rcases hsum with ⟨hst, _⟩ | ⟨p0, hp0, hp0na, hp0st, _⟩
      · unfold selectBranchingPair
        rw [hst]
      · exfalso
        obtain ⟨hlt, hjn⟩ := (mem_allPairs g.n p0).1 hp0
        exact hp0na (hcomp p0.1 p0.2 (by omega) hjn (by omega))
  · rintro ⟨i, j, hij, hjn, hna⟩
    rcases hsum with ⟨hst, hnone⟩ | ⟨p0, hp0, hp0na, hp0st, hmax⟩
    · exact absurd hna (fun hh =>
        (hnone (i, j) ((mem_allPairs g.n (i, j)).2 ⟨hij, hjn⟩)) hh)
    · obtain ⟨hp0lt, hp0n⟩ := (mem_allPairs g.n p0).1 hp0
      refine ⟨p0.1, p0.2, ?_, hp0lt, hp0n, hp0na, ?_, ?_⟩
      · unfold selectBranchingPair
        rw [hp0st]
      · intro a b hab hbn hnab
        have h := (hmax (a, b) ((mem_allPairs g.n (a, b)).2 ⟨hab, hbn⟩) hnab).1
        rw [sbpScore_eq g hlen (a, b) (by omega) hbn,
          sbpScore_eq g hlen p0 (by omega) hp0n] at h
        exact_mod_cast h
      · intro a b hab hbn hnab heq
        have h := (hmax (a, b) ((mem_allPairs g.n (a, b)).2 ⟨hab, hbn⟩) hnab).2
        have heq' : sbpScore g (a, b) = sbpScore g p0 := by
          rw [sbpScore_eq g hlen (a, b) (by omega) hbn,
            sbpScore_eq g hlen p0 (by omega) hp0n]
          exact_mod_cast heq
        rcases h heq' with heqp | hlex
        · right
          exact ⟨congrArg Prod.fst heqp, le_of_eq (congrArg Prod.snd heqp)⟩
        · unfold lexLt at hlex
          rcases hlex with h1 | ⟨h1, h2⟩
          · exact Or.inl h1
          · exact Or.inr ⟨h1, le_of_lt h2⟩

/-- Witness for C8 on the path graph, whose only non-adjacent pair is
`(0, 2)`. -/
theorem claim_C8_witness :
    ((selectBranchingPair pathGraph3 = (-1, -1) ↔
      ∀ i j, i < pathGraph3.n → j < pathGraph3.n → i ≠ j →
        j ∈ adjAt pathGraph3.adj i) ∧
    ((∃ i j, i < j ∧ j < pathGraph3.n ∧ j ∉ adjAt pathGraph3.adj i) →
      ∃ v1 v2 : ℕ, selectBranchingPair pathGraph3 = ((v1 : ℤ), (v2 : ℤ)) ∧
        v1 < v2 ∧ v2 < pathGraph3.n ∧ v2 ∉ adjAt pathGraph3.adj v1 ∧
        (∀ a b, a < b → b < pathGraph3.n → b ∉ adjAt pathGraph3.adj a →
          degOf pathGraph3 a + degOf pathGraph3 b ≤
            degOf pathGraph3 v1 + degOf pathGraph3 v2) ∧
        (∀ a b, a < b → b < pathGraph3.n → b ∉ adjAt pathGraph3.adj a →
          degOf pathGraph3 a + degOf pathGraph3 b =
            degOf pathGraph3 v1 + degOf pathGraph3 v2 →
          v1 < a ∨ (v1 = a ∧ v2 ≤ b)))) :=
  claim_C8 pathGraph3 (by decide)

-- ## Lifting a coloring to original vertices (branch_and_bound.cpp:92-96)

/-- The incumbent-update lifting: start from `orig_n` entries of `-1`, then
for every current vertex `i` give each `orig ∈ mapping[i]` the color
`coloring[i]`. -/
def liftColoring (g : Graph) (coloring : List ℤ) : List ℤ :=
  (List.range g.n).foldl (fun acc i =>
    (g.mappingAt i).foldl
      (fun acc2 orig => acc2.set orig (coloring.getD i 0)) acc)
    (List.replicate g.orig_n (-1))

theorem foldl_set_length (m : List ℕ) (c : ℤ) :
    ∀ acc : List ℤ,
      (m.foldl (fun acc2 orig => acc2.set orig c) acc).length = acc.length := by
  induction m with
  | nil => intro acc; rfl
  | cons o t ih =>
    intro acc
    rw [List.foldl_cons, ih]
    simp

theorem foldl_set_getD (m : List ℕ) (c : ℤ) :
    ∀ (acc : List ℤ) (u : ℕ),
      (m.foldl (fun acc2 orig => acc2.set orig c) acc).getD u 0 =
        if u ∈ m ∧ u < acc.length then c else acc.getD u 0 := by
  induction m with
  | nil =>
    intro acc u
    rw [if_neg (by simp)]
    rfl
  | cons o t ih =>
    intro acc u
    rw [List.foldl_cons, ih]
    by_cases hut : u ∈ t ∧ u < acc.length
    · rw [if_pos (by simpa using hut),
        if_pos ⟨List.mem_cons_of_mem _ hut.1, hut.2⟩]
    · rw [if_neg (by simpa using hut)]
      by_cases huo : u = o
      · subst huo
        by_cases hlen : u < acc.length
        · rw [getD_set_self acc u 0 c hlen,
            if_pos ⟨List.mem_cons_self _ _, hlen⟩]
        · rw [if_neg (fun hc => hlen hc.2),
            getD_out_of_range _ _ _ (by simp; omega),
            getD_out_of_range _ _ _ (by omega)]
      · rw [getD_set_ne acc o u 0 c (fun h => huo h.symm)]
        rw [if_neg ?hne]
        case hne =>
          rintro ⟨hmem, hlen⟩
          rcases List.mem_cons.1 hmem with h | h
          · exact huo h
          · exact hut ⟨h, hlen⟩

theorem liftFold_length (g : Graph) (coloring : List ℤ) :
    ∀ (l : List ℕ) (acc : List ℤ),
      (l.foldl (fun acc i => (g.mappingAt i).foldl
        (fun acc2 orig => acc2.set orig (coloring.getD i 0)) acc) acc).length
        = acc.length := by
  intro l
  induction l with
  | nil => intro acc; rfl
  | cons h t ih =>
    intro acc
    rw [List.foldl_cons, ih, foldl_set_length]

theorem liftFold_getD (g : Graph) (coloring : List ℤ) :
    ∀ (l : List ℕ) (acc : List ℤ) (u : ℕ), l.Nodup →
      ((∀ i ∈ l, u ∉ g.mappingAt i) →
        ((l.foldl (fun acc i => (g.mappingAt i).foldl
          (fun acc2 orig => acc2.set orig (coloring.getD i 0)) acc)
            acc).getD u 0 = acc.getD u 0)) ∧
      (∀ i ∈ l, u ∈ g.mappingAt i →
        (∀ i' ∈ l, i' ≠ i → u ∉ g.mappingAt i') → u < acc.length →
        ((l.foldl (fun acc i => (g.mappingAt i).foldl
          (fun acc2 orig => acc2.set orig (coloring.getD i 0)) acc)
            acc).getD u 0 = coloring.getD i 0)) := by
  intro l
  induction l with
  | nil =>
    intro acc u _
    constructor
    · intro _
      rfl
    · intro i hi
      exact absurd hi (List.not_mem_nil i)
  | cons h t ih =>
    intro acc u hnd
    have hnd' : t.Nodup := (List.nodup_cons.1 hnd).2
    have hht : h ∉ t := (List.nodup_cons.1 hnd).1
    constructor
    · intro hnone
      rw [List.foldl_cons]
      have h1 := (ih ((g.mappingAt h).foldl
        (fun acc2 orig => acc2.set orig (coloring.getD h 0)) acc) u hnd').1
        (fun i hi => hnone i (List.mem_cons_of_mem _ hi))
      rw [h1, foldl_set_getD,
        if_neg (fun hc => hnone h (List.mem_cons_self _ _) hc.1)]
    · intro i hi hmem huniq hlen
      rw [List.foldl_cons]
      rcases List.mem_cons.1 hi with rfl | hit
      · -- the class is the head: set now, untouched afterwards
        have h1 := (ih ((g.mappingAt i).foldl
          (fun acc2 orig => acc2.set orig (coloring.getD i 0)) acc) u hnd').1
          (fun i' hi' =>
            huniq i' (List.mem_cons_of_mem _ hi')
              (fun he => hht (he ▸ hi')))
        rw [h1, foldl_set_getD, if_pos ⟨hmem, hlen⟩]
      · -- the class is in the tail; the head never touches u
        have hhne : h ≠ i := fun he => hht (he ▸ hit)
        have hnoth : u ∉ g.mappingAt h :=
          huniq h (List.mem_cons_self _ _) hhne
        have h2 := (ih ((g.mappingAt h).foldl
          (fun acc2 orig => acc2.set orig (coloring.getD h 0)) acc) u hnd').2
          i hit hmem
          (fun i' hi' hne => huniq i' (List.mem_cons_of_mem _ hi') hne)
          (by rw [foldl_set_length]; exact hlen)
        exact h2

theorem liftColoring_length (g : Graph) (coloring : List ℤ) :
    (liftColoring g coloring).length = g.orig_n := by
  unfold liftColoring
  rw [liftFold_length]
  simp

theorem liftColoring_getD (g : Graph) (coloring : List ℤ)
    (hdisj : ∀ a < g.n, ∀ b < g.n, a ≠ b →
      ∀ u, u ∈ g.mappingAt a → u ∉ g.mappingAt b)
    (i : ℕ) (hi : i < g.n) (u : ℕ) (hu : u ∈ g.mappingAt i)
    (hun : u < g.orig_n) :
    (liftColoring g coloring).getD u 0 = coloring.getD i 0 := by
  unfold liftColoring
  exact (liftFold_getD g coloring (List.range g.n)
    (List.replicate g.orig_n (-1)) u (List.nodup_range g.n)).2
    i (List.mem_range.2 hi) hu
    (fun i' hi' hne =>
      hdisj i hi i' (List.mem_range.1 hi') (fun he => hne he.symm) u hu)
    (by simp; omega)

-- ## Zykov reachability and the quotient invariant (claim C2)

/-- The root of the branching: the original input graph, whose mapping is
the identity quotient (`Graph::Graph(int)` constructor, graph.cpp:23-29). -/
def OrigGraph (g0 : Graph) : Prop :=
  AdjWF g0 ∧ g0.orig_n = g0.n ∧
  g0.mapping = (List.range g0.n).map (fun i => [i])

instance (g0 : Graph) : Decidable (OrigGraph g0) := by
  unfold OrigGraph; infer_instance

/-- Graphs reachable from `g0` by the two branching operators applied to
distinct non-adjacent current vertex pairs. -/
inductive Reach (g0 : Graph) : Graph → Prop
  | refl : Reach g0 g0
  | merge (g : Graph) (i j : ℕ) : Reach g0 g → i < g.n → j < g.n → i ≠ j →
      j ∉ adjAt g.adj i → Reach g0 (g.mergeVertices i j)
  | extend (g g' : Graph) (i j : ℕ) : Reach g0 g → i < g.n → j < g.n →
      i ≠ j → j ∉ adjAt g.adj i → g.addEdge (i : ℤ) (j : ℤ) = some g' →
      Reach g0 g'

/-- Invariant connecting a branched graph back to the original: well-formed
adjacency, the mappings partition `[0, g0.n)`, and an edge of the original
graph always joins two distinct, adjacent current classes. -/
def QuotInv (g0 g : Graph) : Prop :=
  AdjWF g ∧ g.orig_n = g0.n ∧ g.mapping.length = g.n ∧
  (∀ i < g.n, ∀ u ∈ g.mappingAt i, u < g0.n) ∧
  (∀ u < g0.n, ∃ i, i < g.n ∧ u ∈ g.mappingAt i) ∧
  (∀ a, a < g.n → ∀ b, b < g.n → a ≠ b →
    ∀ u, u ∈ g.mappingAt a → u ∉ g.mappingAt b) ∧
  (∀ u v, v ∈ adjAt g0.adj u → ∀ a b, a < g.n → b < g.n →
    u ∈ g.mappingAt a → v ∈ g.mappingAt b → a ≠ b ∧ b ∈ adjAt g.adj a)

theorem QuotInv_base (g0 : Graph) (h0 : OrigGraph g0) : QuotInv g0 g0 := by
  obtain ⟨hwf, horig, hmap⟩ := h0
  have hmapAt : ∀ i < g0.n, g0.mappingAt i = [i] := by
    intro i hi
    unfold Graph.mappingAt
    rw [hmap, getD_map_range g0.n _ i [] hi]
  refine ⟨hwf, horig.symm ▸ rfl, ?_, ?_, ?_, ?_, ?_⟩
  · rw [hmap]
    simp
  · intro i hi u hu
    rw [hmapAt i hi] at hu
    have : u = i := by simpa using hu
    omega
  · intro u hu
    exact ⟨u, hu, by rw [hmapAt u hu]; exact List.mem_cons_self _ _⟩
  · intro a ha b hb hab u hua hub
    rw [hmapAt a ha] at hua
    rw [hmapAt b hb] at hub
    have h1 : u = a := by simpa using hua
    have h2 : u = b := by simpa using hub
    exact hab (h1 ▸ h2)
  · intro u v hadj a b ha hb hua hvb
    rw [hmapAt a ha] at hua
    rw [hmapAt b hb] at hvb
    have h1 : u = a := by simpa using hua
    have h2 : v = b := by simpa using hvb
    subst h1
    subst h2
    refine ⟨?_, hadj⟩
    intro hab
    exact hwf.no_self' u (hab ▸ hadj)

theorem QuotInv_addEdge (g0 g g' : Graph) (hq : QuotInv g0 g) (i j : ℕ)
    (hi : i < g.n) (hj : j < g.n) (hij : i ≠ j)
    (heq : g.addEdge (i : ℤ) (j : ℤ) = some g') : QuotInv g0 g' := by
  obtain ⟨hwf, horig, hmlen, hbound, hcover, hdisj, hedge⟩ := hq
  have hg' : g' = { g with adj := addEdgeAdj g.adj i j } := by
    rw [addEdge_eq_some g i j hi hj] at heq
    exact (Option.some.inj heq).symm
  subst hg'
  refine ⟨addEdge_AdjWF g hwf i j hi hj hij, horig, hmlen, hbound, hcover,
    hdisj, ?_⟩
  intro u v hadj a b ha hb hua hvb
  have ha' : a < g.n := ha
  have hb' : b < g.n := hb
  have hlen : g.adj.length = g.n := hwf.1
  obtain ⟨hab, hmem⟩ := hedge u v hadj a b ha' hb' hua hvb
  refine ⟨hab, ?_⟩
  rw [mem_addEdgeAdj g.adj i j a b (by omega) (by omega) hij]
  exact Or.inl hmem

/-- Introduction rule for the merged `connected` predicate from the old
class structure. -/
theorem mergeConn_intro (g : Graph) (i j : ℕ) (A B I J : ℕ)
    (hIA : (A = i ∧ (I = i ∨ I = j)) ∨ (A ≠ i ∧ I = A))
    (hJB : (B = i ∧ (J = i ∨ J = j)) ∨ (B ≠ i ∧ J = B))
    (hadj : J ∈ adjAt g.adj I) (hAB : A ≠ B) :
    mergeConn g i j A B := by
  unfold mergeConn
  rcases hIA with ⟨hAi, hIij⟩ | ⟨hAi, hIA'⟩
  · subst hAi
    rw [if_pos rfl]
    rcases hJB with ⟨hBi, _⟩ | ⟨_, hJB'⟩
    · exact absurd hBi.symm hAB
    · subst hJB'
      rcases hIij with rfl | rfl
      · exact Or.inl hadj
      · exact Or.inr hadj
  · rw [if_neg hAi]
    subst hIA'
    rcases hJB with ⟨hBi, hJij⟩ | ⟨hBi, hJB'⟩
    · subst hBi
      rw [if_pos rfl]
      rcases hJij with rfl | rfl
      · exact Or.inl hadj
      · exact Or.inr hadj
    · subst hJB'
      rw [if_neg hBi]
      exact hadj

theorem QuotInv_merge (g0 g : Graph) (hq : QuotInv g0 g) (i j : ℕ)
    (hi : i < g.n) (hj : j < g.n) (hij : i ≠ j)
    (hnadj : j ∉ adjAt g.adj i) : QuotInv g0 (g.mergeVertices i j) := by
  obtain ⟨hwf, horig, hmlen, hbound, hcover, hdisj, hedge⟩ := hq
  have hn' : (g.mergeVertices i j).n = g.n - 1 := merge_n g i j
  refine ⟨merge_AdjWF g hwf i j hj, ?_, ?_, ?_, ?_, ?_, ?_⟩
  · rw [merge_orig]
    exact horig
  · rw [merge_mapping_length g i j hj, hn']
  · intro a ha u hu
    rw [hn'] at ha
    rw [merge_mappingAt g i j a hj ha] at hu
    split at hu
    · rcases List.mem_append.1 hu with h | h
      · exact hbound i hi u h
      · exact hbound j hj u h
    · exact hbound (skipIdx j a) (skipIdx_lt g.n j a hj ha) u hu
  · intro u hu
    obtain ⟨i0, hi0, hmem⟩ := hcover u hu
    rw [hn']
    by_cases hji0 : i0 = j
    · refine ⟨unskipIdx j i, unskipIdx_lt g.n j i hj hi hij, ?_⟩
      rw [merge_mappingAt g i j _ hj (unskipIdx_lt g.n j i hj hi hij),
        if_pos (skipIdx_unskipIdx j i hij)]
      exact List.mem_append.2 (Or.inr (hji0 ▸ hmem))
    · refine ⟨unskipIdx j i0, unskipIdx_lt g.n j i0 hj hi0 hji0, ?_⟩
      rw [merge_mappingAt g i j _ hj (unskipIdx_lt g.n j i0 hj hi0 hji0),
        skipIdx_unskipIdx j i0 hji0]
      by_cases hii0 : i0 = i
      · rw [if_pos hii0]
        exact List.mem_append.2 (Or.inl (hii0 ▸ hmem))
      · rw [if_neg hii0]
        exact hmem
  · intro a ha b hb hab u hua hub
    rw [hn'] at ha hb
    rw [merge_mappingAt g i j a hj ha] at hua
    rw [merge_mappingAt g i j b hj hb] at hub
    have hskipne : skipIdx j a ≠ skipIdx j b :=
      fun h => hab (skipIdx_inj j a b h)
    split at hua <;> rename_i hA
    · split at hub <;> rename_i hB
      · exact hskipne (hA.trans hB.symm)
      · rcases List.mem_append.1 hua with h1 | h1
        · exact hdisj i hi (skipIdx j b) (skipIdx_lt g.n j b hj hb)
            (fun h => hB h.symm) u h1 hub
        · exact hdisj j hj (skipIdx j b) (skipIdx_lt g.n j b hj hb)
            (fun h => skipIdx_ne j b h.symm) u h1 hub
    · split at hub <;> rename_i hB
      · rcases List.mem_append.1 hub with h1 | h1
        · exact hdisj (skipIdx j a) (skipIdx_lt g.n j a hj ha) i hi hA u
            hua h1
        · exact hdisj (skipIdx j a) (skipIdx_lt g.n j a hj ha) j hj
            (skipIdx_ne j a) u hua h1
      · exact hdisj (skipIdx j a) (skipIdx_lt g.n j a hj ha) (skipIdx j b)
          (skipIdx_lt g.n j b hj hb) hskipne u hua hub
  · intro u v hadj0 a b ha hb hua hub
    rw [hn'] at ha hb
    rw [merge_mappingAt g i j a hj ha] at hua
    rw [merge_mappingAt g i j b hj hb] at hub
    have hclassu : ∃ I, I < g.n ∧ u ∈ g.mappingAt I ∧
        ((skipIdx j a = i ∧ (I = i ∨ I = j)) ∨
         (skipIdx j a ≠ i ∧ I = skipIdx j a)) := by
      split at hua <;> rename_i hA
      · rcases List.mem_append.1 hua with h | h
        · exact ⟨i, hi, h, Or.inl ⟨hA, Or.inl rfl⟩⟩
        · exact ⟨j, hj, h, Or.inl ⟨hA, Or.inr rfl⟩⟩
      · exact ⟨skipIdx j a, skipIdx_lt g.n j a hj ha, hua, Or.inr ⟨hA, rfl⟩⟩
    have hclassv : ∃ J, J < g.n ∧ v ∈ g.mappingAt J ∧
        ((skipIdx j b = i ∧ (J = i ∨ J = j)) ∨
         (skipIdx j b ≠ i ∧ J = skipIdx j b)) := by
      split at hub <;> rename_i hB
      · rcases List.mem_append.1 hub with h | h
        · exact ⟨i, hi, h, Or.inl ⟨hB, Or.inl rfl⟩⟩
        · exact ⟨j, hj, h, Or.inl ⟨hB, Or.inr rfl⟩⟩
      · exact ⟨skipIdx j b, skipIdx_lt g.n j b hj hb, hub, Or.inr ⟨hB, rfl⟩⟩
    obtain ⟨I, hI, huI, hdescu⟩ := hclassu
    obtain ⟨J, hJ, hvJ, hdescv⟩ := hclassv
    obtain ⟨hIJ, hIJadj⟩ := hedge u v hadj0 I J hI hJ huI hvJ
    by_cases hboth : skipIdx j a = i ∧ skipIdx j b = i
    · exfalso
      rcases hdescu with ⟨_, hIij⟩ | ⟨hA, _⟩
      · rcases hdescv with ⟨_, hJij⟩ | ⟨hB, _⟩
        · rcases hIij with rfl | rfl
          · rcases hJij with rfl | rfl
            · exact hIJ rfl
            · exact hnadj hIJadj
          · rcases hJij with rfl | rfl
            · exact hnadj (hwf.symm' hIJadj)
            · exact hIJ rfl
        · exact hB hboth.2
      · exact hA hboth.1
    · have hab : a ≠ b := by
        intro hab'
        subst hab'
        by_cases hAi : skipIdx j a = i
        · exact hboth ⟨hAi, hAi⟩
        · rcases hdescu with ⟨h, _⟩ | ⟨_, hIA⟩
          · exact hAi h
          · rcases hdescv with ⟨h, _⟩ | ⟨_, hJB⟩
            · exact hAi h
            · exact hIJ (hIA.trans hJB.symm)
      have hskipne : skipIdx j a ≠ skipIdx j b :=
        fun h => hab (skipIdx_inj j a b h)
      rw [merge_adjAt_mem' g hwf i j a b hj]
      refine ⟨hab, ha, hb, hab, ?_⟩
      apply mergeConn_intro g i j (skipIdx j a) (skipIdx j b) I J
      · rcases hdescu with ⟨h1, h2⟩ | ⟨h1, h2⟩
        · exact Or.inl ⟨h1, h2⟩
        · exact Or.inr ⟨h1, h2⟩
      · rcases hdescv with ⟨h1, h2⟩ | ⟨h1, h2⟩
        · exact Or.inl ⟨h1, h2⟩
        · exact Or.inr ⟨h1, h2⟩
      · exact hIJadj
      · exact hskipne

theorem Reach_QuotInv (g0 : Graph) (h0 : OrigGraph g0) :
    ∀ g, Reach g0 g → QuotInv g0 g := by
  intro g hr
  induction hr with
  | refl => exact QuotInv_base g0 h0
  | merge g i j hr hi hj hij hnadj ih =>
    exact QuotInv_merge g0 g ih i j hi hj hij hnadj
  | extend g g' i j hr hi hj hij hnadj heq ih =>
    exact QuotInv_addEdge g0 g g' ih i j hi hj hij heq

/-- Claim C2: for any graph reachable from the original input graph by the
branching operators on distinct non-adjacent pairs, the incumbent update —
lifting the DSATUR coloring to original vertices through `mapping` — yields
a proper coloring of the original graph with every entry in `[0, k)`. -/
theorem claim_C2 (g0 g : Graph) (h0 : OrigGraph g0) (hr : Reach g0 g)
    (k : ℤ) (colors : List ℤ) (hc : g.heuristicColoring = (k, colors)) :
    (liftColoring g colors).length = g0.n ∧
    (∀ u < g0.n, ∀ v ∈ adjAt g0.adj u,
      (liftColoring g colors).getD u 0 ≠ (liftColoring g colors).getD v 0) ∧
    (∀ u < g0.n, 0 ≤ (liftColoring g colors).getD u 0 ∧
      (liftColoring g colors).getD u 0 < k) := by
  obtain ⟨hwf, horig, hmlen, hbound, hcover, hdisj, hedge⟩ :=
    Reach_QuotInv g0 h0 g hr
  obtain ⟨hclen, hcrange, hcproper, hcle, _, _, _⟩ :=
    heuristicColoring_spec g hwf k colors hc
  have hlift : ∀ u < g0.n, ∃ i, i < g.n ∧ u ∈ g.mappingAt i ∧
      (liftColoring g colors).getD u 0 = colors.getD i 0 := by
    intro u hu
    obtain ⟨i, hi, hmem⟩ := hcover u hu
    exact ⟨i, hi, hmem,
      liftColoring_getD g colors hdisj i hi u hmem (by omega)⟩
  refine ⟨?_, ?_, ?_⟩
  · rw [liftColoring_length, horig]
  · intro u hu v hv
    have hvn : v < g0.n := h0.1.mem_lt' hv
    obtain ⟨iu, hiu, humem, hulift⟩ := hlift u hu
    obtain ⟨iv, hiv, hvmem, hvlift⟩ := hlift v hvn
    obtain ⟨hne, hadj⟩ := hedge u v hv iu iv hiu hiv humem hvmem
    rw [hulift, hvlift]
    exact hcproper iu hiu iv hadj
  · intro u hu
    obtain ⟨iu, hiu, humem, hulift⟩ := hlift u hu
    rw [hulift]
    have h1 := hcrange iu hiu
    have h2 := hcle iu hiu
    exact ⟨h1.1, by omega⟩

/-- Witness for C2: the original path graph itself (reachable by zero
branching steps) and its DSATUR coloring. -/
theorem claim_C2_witness :
    ((liftColoring pathGraph3 [1, 0, 1]).length = pathGraph3.n ∧
    (∀ u < pathGraph3.n, ∀ v ∈ adjAt pathGraph3.adj u,
      (liftColoring pathGraph3 [1, 0, 1]).getD u 0 ≠
        (liftColoring pathGraph3 [1, 0, 1]).getD v 0) ∧
    (∀ u < pathGraph3.n, 0 ≤ (liftColoring pathGraph3 [1, 0, 1]).getD u 0 ∧
      (liftColoring pathGraph3 [1, 0, 1]).getD u 0 < 2)) :=
  claim_C2 pathGraph3 pathGraph3 (by decide) Reach.refl 2 [1, 0, 1]
    (by decide)

-- ## `findConnectedComponents` (graph.cpp:293-317) and the empty graph

/-- BFS inner loop of `findConnectedComponents` (graph.cpp:303-312),
fuel-indexed: each step pops the queue front and pushes the unvisited
neighbours (a vertex is pushed at most once, so `n + 1` fuel reproduces
the source).  Neighbour iteration order over the `unordered_set` is
unspecified in the source; we fix increasing index order. -/
def bfsLoop (adj : List (Finset ℕ)) :
    ℕ → List ℕ → List Bool → List ℕ → List Bool × List ℕ
  | 0, _, visited, comp => (visited, comp)
  | _ + 1, [], visited, comp => (visited, comp)
  | fuel + 1, v :: qrest, visited, comp =>
    bfsLoop adj fuel
      (((List.range adj.length).filter (fun w => w ∈ adjAt adj v)).foldl
        (fun (st : List ℕ × List Bool × List ℕ) w =>
          if st.2.1.getD w false = false
          then (st.1 ++ [w], st.2.1.set w true, st.2.2 ++ [w])
          else st) (qrest, visited, comp)).1
      (((List.range adj.length).filter (fun w => w ∈ adjAt adj v)).foldl
        (fun (st : List ℕ × List Bool × List ℕ) w =>
          if st.2.1.getD w false = false
          then (st.1 ++ [w], st.2.1.set w true, st.2.2 ++ [w])
          else st) (qrest, visited, comp)).2.1
      (((List.range adj.length).filter (fun w => w ∈ adjAt adj v)).foldl
        (fun (st : List ℕ × List Bool × List ℕ) w =>
          if st.2.1.getD w false = false
          then (st.1 ++ [w], st.2.1.set w true, st.2.2 ++ [w])
          else st) (qrest, visited, comp)).2.2

/-- `findConnectedComponents` (graph.cpp:293-317): scan start vertices in
index order, launching a BFS from every unvisited one and collecting the
visited component. -/
def findConnectedComponents (g : Graph) : List (List ℕ) :=
  ((List.range g.n).foldl (fun (st : List Bool × List (List ℕ)) start =>
    if st.1.getD start false = false then
      ((bfsLoop g.adj (g.n + 1) [start] (st.1.set start true) [start]).1,
       st.2 ++ [(bfsLoop g.adj (g.n + 1) [start]
         (st.1.set start true) [start]).2])
    else st) (List.replicate g.n false, [])).2

/-- The empty input graph (`p edge 0 0`, i.e. `Graph(0)`). -/
def zeroVertexGraph : Graph := ⟨0, 0, [], []⟩

/-- Claim C7 is violated by the code: for the empty graph,
`findConnectedComponents` returns the empty component list, so
`components.size() > 1` is false and the single-component path of `main`
(main.cpp:162-171) unconditionally evaluates `components[0]` — an
out-of-bounds access on an empty vector (there is no index `0`), instead
of reporting `num_colors = 0` with an empty coloring. -/
theorem claim_C7_bug :
    findConnectedComponents zeroVertexGraph = [] ∧
    ¬ ((findConnectedComponents zeroVertexGraph).length > 1) ∧
    ¬ (0 < (findConnectedComponents zeroVertexGraph).length) := by
  refine ⟨rfl, ?_, ?_⟩ <;> decide

-- ## `branchAndBound` (branch_and_bound.cpp:62-120) and the time gate

/-- `ColoringSolution` (graph.hpp:27-35). -/
structure ColoringSolution where
  numColors : ℤ
  coloring : List ℤ
deriving DecidableEq

/-- `INF` (graph.hpp:22). -/
def INF : ℤ := 1000000000

/-- State threaded through `branchAndBound`: the shared best solution, the
global `searchCompleted` flag, and a counter indexing successive wall-clock
reads (the source reads `steady_clock::now()` at each entry; we model the
elapsed seconds of the `k`-th read as `clock k`). -/
structure BnBState where
  best : ColoringSolution
  searchCompleted : Bool
  clockIdx : ℕ
deriving DecidableEq

/-- `branchAndBound` (branch_and_bound.cpp:62-120), fuel-indexed and
sequentialised (the OpenMP tasks explore the two children in some order;
we fix merge first, then addEdge, matching the sequential branch).  At
entry the elapsed time is compared against the limit: on expiry the global
flag is cleared and the state returned with the best solution untouched.
`selectBranchingPair` yields in-range indices whenever it is not the
sentinel, so the `Option.getD g` on `addEdge` is never exercised on the
`none` branch. -/
def branchAndBound (clock : ℕ → ℚ) (timeLimit : ℚ) :
    ℕ → Graph → BnBState → BnBState
  | 0, _, st => st
  | fuel + 1, g, st0 =>
    if timeLimit ≤ clock st0.clockIdx then
      { st0 with clockIdx := st0.clockIdx + 1, searchCompleted := false }
    else
      let st := { st0 with clockIdx := st0.clockIdx + 1 }
      let lbc := g.heuristicMaxClique
      let ubc := g.heuristicColoring
      let st1 := if ubc.1 < st.best.numColors
        then { st with best := ⟨ubc.1, liftColoring g ubc.2⟩ } else st
      if (lbc.1 : ℤ) = ubc.1 then st1
      else if st1.best.numColors ≤ (lbc.1 : ℤ) then st1
      else
        if (selectBranchingPair g).1 = -1 then st1
        else
          branchAndBound clock timeLimit fuel
            ((g.addEdge (selectBranchingPair g).1
              (selectBranchingPair g).2).getD g)
            (branchAndBound clock timeLimit fuel
              (g.mergeVertices (selectBranchingPair g).1.toNat
                (selectBranchingPair g).2.toNat) st1)

/-- Claim C6: if at entry the elapsed wall-clock time has reached
`timeLimit`, `branchAndBound` clears the `searchCompleted` flag and
returns with the best solution completely unchanged. -/
theorem claim_C6 (clock : ℕ → ℚ) (timeLimit : ℚ) (fuel : ℕ) (g : Graph)
    (st : BnBState) (hg : timeLimit ≤ clock st.clockIdx) :
    (branchAndBound clock timeLimit (fuel + 1) g st).best = st.best ∧
    (branchAndBound clock timeLimit (fuel + 1) g st).searchCompleted
      = false := by
  have hstep : branchAndBound clock timeLimit (fuel + 1) g st =
      { st with clockIdx := st.clockIdx + 1, searchCompleted := false } := by
    rw [branchAndBound]
    rw [if_pos hg]
  rw [hstep]
  exact ⟨rfl, rfl⟩

/-- Witness for C6: a clock reading of 5 seconds against a 3-second limit. -/
theorem claim_C6_witness :
    (branchAndBound (fun _ => (5 : ℚ)) 3 1 zeroVertexGraph
      ⟨⟨INF, []⟩, true, 0⟩).best = (⟨⟨INF, []⟩, true, 0⟩ : BnBState).best ∧
    (branchAndBound (fun _ => (5 : ℚ)) 3 1 zeroVertexGraph
      ⟨⟨INF, []⟩, true, 0⟩).searchCompleted = false :=
  claim_C6 (fun _ => (5 : ℚ)) 3 0 zeroVertexGraph ⟨⟨INF, []⟩, true, 0⟩
    (by norm_num)
